import Mathlib

/-!
# MergeSort: the sequential merge and the MPI coordinator of `mergesort.cpp`

A shallow embedding of `src/source/mergesort.cpp`.

* A C array (`double *buffer`) is a `List α`; an access outside the list is
  undefined behaviour in C++ and makes the embedded function return `none`.
* The scratch array `new double[size1 + size2]` is a `List (Option α)` whose
  cells start as `none` (allocated, not yet written); reading such a cell
  also returns `none`.
* The `int` parameters are natural numbers: every statement below bounds
  them by the length of the buffer.
* The elements are of any type with a decidable `<`, the comparison of line
  25; the statements on ascending runs take a linear order, and a `double`
  that is not a number is outside the model.
* A `for` loop whose body leaves its counter alone runs `hi - lo` times and
  is a structural recursion on that number. The `while` loop of `merge` and
  the halving loop of `main` carry a fuel argument that the caller sets to a
  bound on their number of iterations; running out of fuel returns `none`.
-/

namespace MergeSort

/-! ## Array accesses -/

/-- The read `a[i]`: `none` when `i` is outside the array. -/
def readAt {β : Type} (a : List β) (i : Nat) : Option β :=
  a[i]?

/-- The write `a[i] = v`: `none` when `i` is outside the array. -/
def writeAt {β : Type} (a : List β) (i : Nat) (v : β) : Option (List β) :=
  if i < a.length then some (a.set i v) else none

/-- The loop `for (int i = lo; i < lo + n; i++) body(i)` over a state `σ`,
stopping at the first failing iteration. -/
def forLoop {σ : Type} (body : Nat → σ → Option σ) : Nat → Nat → σ → Option σ
  | _, 0, s => some s
  | i, n + 1, s => (body i s).bind (forLoop body (i + 1) n)

/-- The slice `buffer[start, start + size)` as a list. -/
def run {α : Type} (buffer : List α) (start size : Nat) : List α :=
  (buffer.drop start).take size

/-! ## `merge` (mergesort.cpp, lines 15-53) -/

/-- The loop of lines 21-35,
`while ((count1 < size1) & (count2 < size2)) { ... }`,
on the state `(count1, count2, working_buffer)`. -/
def mergeLoop {α : Type} [LT α] [DecidableRel ((· < ·) : α → α → Prop)]
    (buffer : List α) (start1 start2 size1 size2 : Nat) :
    Nat → Nat → Nat → List (Option α) → Option (Nat × Nat × List (Option α))
  | 0, count1, count2, working_buffer =>
    if count1 < size1 ∧ count2 < size2 then none else some (count1, count2, working_buffer)
  | fuel + 1, count1, count2, working_buffer =>
    if count1 < size1 ∧ count2 < size2 then
      (readAt buffer (start1 + count1)).bind fun x1 =>
      (readAt buffer (start2 + count2)).bind fun x2 =>
      if x1 < x2 then
        (writeAt working_buffer (count1 + count2) (some x1)).bind fun w =>
        mergeLoop buffer start1 start2 size1 size2 fuel (count1 + 1) count2 w
      else
        (writeAt working_buffer (count1 + count2) (some x2)).bind fun w =>
        mergeLoop buffer start1 start2 size1 size2 fuel count1 (count2 + 1) w
    else some (count1, count2, working_buffer)

/-- The body of the loop of lines 38-41:
`working_buffer[i + count2] = buffer[start1 + i]`. -/
def fillLeft {α : Type} (buffer : List α) (start1 count2 : Nat) (i : Nat)
    (working_buffer : List (Option α)) : Option (List (Option α)) :=
  (readAt buffer (start1 + i)).bind fun x => writeAt working_buffer (i + count2) (some x)

/-- The body of the loop of lines 42-45:
`working_buffer[count1 + i] = buffer[start2 + i]`. -/
def fillRight {α : Type} (buffer : List α) (start2 count1 : Nat) (i : Nat)
    (working_buffer : List (Option α)) : Option (List (Option α)) :=
  (readAt buffer (start2 + i)).bind fun x => writeAt working_buffer (count1 + i) (some x)

/-- The body of the loop of lines 47-50: `buffer[i] = working_buffer[i]`. -/
def copyBack {α : Type} (working_buffer : List (Option α)) (i : Nat)
    (buffer : List α) : Option (List α) :=
  (readAt working_buffer i).bind fun cell => cell.bind fun x => writeAt buffer i x

/-- The scratch array of `merge` just before it is copied back (lines 17-45). -/
def mergeWorking {α : Type} [LT α] [DecidableRel ((· < ·) : α → α → Prop)]
    (buffer : List α) (start1 size1 size2 : Nat) :
    Option (List (Option α)) :=
  let working_buffer : List (Option α) := List.replicate (size1 + size2) none
  let start2 := start1 + size1
  (mergeLoop buffer start1 start2 size1 size2 (size1 + size2) 0 0 working_buffer).bind
    fun (count1, count2, w) =>
  (forLoop (fillLeft buffer start1 count2) count1 (size1 - count1) w).bind fun w =>
  forLoop (fillRight buffer start2 count1) count2 (size2 - count2) w

/-- The function `void merge(double *buffer, int start1, int size1, int size2)`:
the buffer after the call, or `none` on an access out of bounds. -/
def merge {α : Type} [LT α] [DecidableRel ((· < ·) : α → α → Prop)]
    (buffer : List α) (start1 size1 size2 : Nat) :
    Option (List α) :=
  (mergeWorking buffer start1 size1 size2).bind fun working_buffer =>
  forLoop (copyBack working_buffer) 0 (size1 + size2) buffer

/-! ## The coordinator, rank 0 (mergesort.cpp, lines 65-127) -/

/-- The constant `const int N = 256` of line 67. -/
def N : Nat := 256

/-- The library call `std::sort(first, last)` on a whole range, by its
contract: the ascending rearrangement of the range. -/
def stdSort {α : Type} [LinearOrder α] (l : List α) : List α :=
  l.insertionSort (· ≤ ·)

/-- The calls rank 0 issues that the statements below count.
`send data count dest tag` is `MPI_Send(buf, count, MPI_DOUBLE, dest, tag, ...)`
with `data` the `count` elements at `buf`; `recvAny count tag` is
`MPI_Recv(buf, count, MPI_DOUBLE, MPI_ANY_SOURCE, tag, ...)`;
`merge start1 size1 size2` is a call of `merge` on `master_list`. -/
inductive Call (α : Type) where
  | send (data : List α) (count : Nat) (dest : Int) (tag : Nat)
  | recvAny (count : Nat) (tag : Nat)
  | merge (start1 size1 size2 : Nat)
  deriving DecidableEq

/-- The state of rank 0: its array and the calls issued so far. -/
structure Rank0State (α : Type) where
  /-- The array `double master_list[N]`. -/
  master_list : List α
  /-- The calls issued so far, oldest first. -/
  calls : List (Call α)
  deriving DecidableEq

/-- The elements a call puts on the wire: those of a send, none otherwise. -/
def Call.data {α : Type} : Call α → List α
  | Call.send data _ _ _ => data
  | _ => []

/-- The body of the loop of lines 79-88: one `MPI_Send` of `listSize`
elements starting at `master_list + listSize * i`, to rank `i`, tag 0. -/
def sendChunk {α : Type} (listSize : Nat) (i : Nat) (st : Rank0State α) :
    Option (Rank0State α) :=
  some { st with
    calls := st.calls ++ [Call.send (run st.master_list (listSize * i) listSize) listSize i 0] }

/-- The distribution stage, lines 76-88. -/
def distribute {α : Type} (master_list : List α) (num_proc : Nat) : Option (Rank0State α) :=
  let listSize := N / num_proc
  forLoop (sendChunk listSize) 1 (num_proc - 1) { master_list := master_list, calls := [] }

/-- Line 90, `std::sort(master_list, master_list + listSize)`. -/
def localSort {α : Type} [LinearOrder α] (listSize : Nat) (st : Rank0State α) :
    Option (Rank0State α) :=
  if listSize ≤ st.master_list.length then
    some { st with
      master_list := stdSort (st.master_list.take listSize) ++ st.master_list.drop listSize }
  else none

/-- The body of the loop of lines 92-106: one `MPI_Recv` of at most
`listSize` elements, tag 1, from any source, stored at
`master_list + listSize * i`. The message delivered is `incoming i`; one
longer than `listSize` is a fatal truncation error. -/
def recvChunk {α : Type} (incoming : Nat → List α) (listSize : Nat) (i : Nat)
    (st : Rank0State α) : Option (Rank0State α) :=
  let payload := incoming i
  let off := listSize * i
  if payload.length ≤ listSize ∧ off + payload.length ≤ st.master_list.length then
    some { master_list :=
             st.master_list.take off ++ payload ++ st.master_list.drop (off + payload.length)
           calls := st.calls ++ [Call.recvAny listSize 1] }
  else none

/-- The inner loop of lines 115-118,
`for (int j = 0; j < i; j += 2) merge(master_list, j * subListSize, subListSize, subListSize)`. -/
def mergeRow {α : Type} [LinearOrder α] (i subListSize : Nat) :
    Nat → Nat → Rank0State α → Option (Rank0State α)
  | 0, j, st => if j < i then none else some st
  | fuel + 1, j, st =>
    if j < i then
      (merge st.master_list (j * subListSize) subListSize subListSize).bind fun b =>
      mergeRow i subListSize fuel (j + 2)
        { master_list := b
          calls := st.calls ++ [Call.merge (j * subListSize) subListSize subListSize] }
    else some st

/-- The outer loop of lines 112-119, `for (int i = num_proc; i > 1; i /= 2)`. -/
def mergePassesLoop {α : Type} [LinearOrder α] :
    Nat → Nat → Rank0State α → Option (Rank0State α)
  | 0, i, st => if i > 1 then none else some st
  | fuel + 1, i, st =>
    if i > 1 then
      let subListSize := N / i
      (mergeRow i subListSize i 0 st).bind (mergePassesLoop fuel (i / 2))
    else some st

/-- The merge passes of rank 0, lines 112-119. -/
def mergePasses {α : Type} [LinearOrder α] (num_proc : Nat) (st : Rank0State α) :
    Option (Rank0State α) :=
  mergePassesLoop num_proc num_proc st

/-- The branch `process_id == 0` of `main`, lines 65-127, up to the state
whose `master_list` is printed. -/
def coordinator {α : Type} [LinearOrder α] (incoming : Nat → List α) (master_list : List α)
    (num_proc : Nat) : Option (Rank0State α) :=
  let listSize := N / num_proc
  (distribute master_list num_proc).bind fun st =>
  (localSort listSize st).bind fun st =>
  (forLoop (recvChunk incoming listSize) 1 (num_proc - 1) st).bind fun st =>
  mergePasses num_proc st

/-! ## The tree-merge loop every process runs (mergesort.cpp, lines 153-173)

Only the calls a process issues are modelled, each taken to return; whether
the matching message ever arrives is outside the model. -/

/-- The MPI calls of the loop, with their scalar arguments:
`probe source tag`, `recv count source tag`, `send count dest tag`. -/
inductive MpiCall where
  | probe (source tag : Int)
  | recv (count source tag : Int)
  | send (count dest tag : Int)
  deriving DecidableEq

/-- The local state of the loop. -/
structure LoopState where
  /-- The variable `int count`. -/
  count : Int
  /-- The pointer `double *buffer`: `none` while uninitialised, `some v`
  once it points to the single cell of `new double(count)`, of value `v`. -/
  buffer : Option Int
  /-- The MPI calls issued so far, oldest first. -/
  calls : List MpiCall
  /-- The values of `round` for which the body has run, oldest first. -/
  rounds : List Nat
  deriving DecidableEq

/-- The branches of the loop body. -/
inductive Role where
  | receive
  | send
  | idle
  deriving DecidableEq

/-- Line 157, `int source_rank = (process_id - 1) / pow(2, round)`: the
quotient truncated towards zero. -/
def source_rank (process_id : Int) (round : Nat) : Int :=
  Int.tdiv (process_id - 1) (2 ^ round)

/-- Line 158, `int recv_rank = process_id / (pow(2, round))`. -/
def recv_rank (process_id : Int) (round : Nat) : Int :=
  Int.tdiv process_id (2 ^ round)

/-- The branch taken at lines 159-172: `if (recv_rank % 2 == 0) ... else if
(source_rank % 2 == 0) ...`, with the remainder of C++ (sign of the dividend). -/
def role (process_id : Int) (round : Nat) : Role :=
  if Int.tmod (recv_rank process_id round) 2 = 0 then Role.receive
  else if Int.tmod (source_rank process_id round) 2 = 0 then Role.send
  else Role.idle

/-- One run of the loop body, lines 157-172. The receive of `count = 0`
elements stores nothing. -/
def treeRound (process_id : Int) (round : Nat) (st : LoopState) : LoopState :=
  match role process_id round with
  | Role.receive =>
    { st with
      buffer := some st.count
      calls := st.calls ++ [MpiCall.probe process_id 1,
        MpiCall.recv st.count (source_rank process_id round) 1]
      rounds := st.rounds ++ [round] }
  | Role.send =>
    { st with
      calls := st.calls ++ [MpiCall.send st.count (recv_rank process_id round) 1]
      rounds := st.rounds ++ [round] }
  | Role.idle => { st with rounds := st.rounds ++ [round] }

/-- The guard `round < log2(num_proc)` of line 155, with `log2` the exact
real logarithm: `2 ^ round < num_proc`. -/
def roundGuard (num_proc round : Nat) : Bool :=
  decide (2 ^ round < num_proc)

/-- The loop `for (int round = 0; round < log2(num_proc); round++)`. -/
def treeLoop (process_id : Int) (num_proc : Nat) : Nat → Nat → LoopState → Option LoopState
  | 0, round, st => if roundGuard num_proc round then none else some st
  | fuel + 1, round, st =>
    if roundGuard num_proc round then
      treeLoop process_id num_proc fuel (round + 1) (treeRound process_id round st)
    else some st

/-- Lines 153-173 for the process of rank `process_id` among `num_proc`:
`int count = 0; double *buffer;` and the loop. -/
def treeMerge (process_id : Int) (num_proc : Nat) : Option LoopState :=
  treeLoop process_id num_proc num_proc 0 { count := 0, buffer := none, calls := [], rounds := [] }

/-! ## `merge` with a log of its array accesses

The same statements as `merge`, line for line, each array access also
appended to a log. -/

/-- One array access of `merge`: a read `buffer[i]`, a write
`working_buffer[i] = ...`, a read `working_buffer[i]`, a write
`buffer[i] = ...`. -/
inductive Access where
  | readBuffer (i : Nat)
  | writeWorking (i : Nat)
  | readWorking (i : Nat)
  | writeBuffer (i : Nat)
  deriving DecidableEq

/-- The bound the accesses of `merge(buffer, start1, size1, size2)` are to
respect: the two runs for `buffer` read, `size1 + size2` cells for the
scratch array and for `buffer` written. -/
def Access.inBounds (start1 size1 size2 : Nat) : Access → Prop
  | Access.readBuffer i => i < start1 + size1 + size2
  | Access.writeWorking i => i < size1 + size2
  | Access.readWorking i => i < size1 + size2
  | Access.writeBuffer i => i < size1 + size2

/-- The loop of lines 21-35 with its accesses logged. -/
def mergeLoopLogged {α : Type} [LT α] [DecidableRel ((· < ·) : α → α → Prop)]
    (buffer : List α) (start1 start2 size1 size2 : Nat) :
    Nat → Nat → Nat → List (Option α) → List Access →
      Option (Nat × Nat × List (Option α) × List Access)
  | 0, count1, count2, working_buffer, log =>
    if count1 < size1 ∧ count2 < size2 then none
    else some (count1, count2, working_buffer, log)
  | fuel + 1, count1, count2, working_buffer, log =>
    if count1 < size1 ∧ count2 < size2 then
      (readAt buffer (start1 + count1)).bind fun x1 =>
      (readAt buffer (start2 + count2)).bind fun x2 =>
      if x1 < x2 then
        (writeAt working_buffer (count1 + count2) (some x1)).bind fun w =>
        mergeLoopLogged buffer start1 start2 size1 size2 fuel (count1 + 1) count2 w
          (log ++ [Access.readBuffer (start1 + count1), Access.readBuffer (start2 + count2),
            Access.writeWorking (count1 + count2)])
      else
        (writeAt working_buffer (count1 + count2) (some x2)).bind fun w =>
        mergeLoopLogged buffer start1 start2 size1 size2 fuel count1 (count2 + 1) w
          (log ++ [Access.readBuffer (start1 + count1), Access.readBuffer (start2 + count2),
            Access.writeWorking (count1 + count2)])
    else some (count1, count2, working_buffer, log)

/-- The body of the loop of lines 38-41 with its accesses logged. -/
def fillLeftLogged {α : Type} (buffer : List α) (start1 count2 : Nat) (i : Nat)
    (s : List (Option α) × List Access) : Option (List (Option α) × List Access) :=
  (readAt buffer (start1 + i)).bind fun x =>
  (writeAt s.1 (i + count2) (some x)).bind fun w =>
  some (w, s.2 ++ [Access.readBuffer (start1 + i), Access.writeWorking (i + count2)])

/-- The body of the loop of lines 42-45 with its accesses logged. -/
def fillRightLogged {α : Type} (buffer : List α) (start2 count1 : Nat) (i : Nat)
    (s : List (Option α) × List Access) : Option (List (Option α) × List Access) :=
  (readAt buffer (start2 + i)).bind fun x =>
  (writeAt s.1 (count1 + i) (some x)).bind fun w =>
  some (w, s.2 ++ [Access.readBuffer (start2 + i), Access.writeWorking (count1 + i)])

/-- The body of the loop of lines 47-50 with its accesses logged. -/
def copyBackLogged {α : Type} (working_buffer : List (Option α)) (i : Nat)
    (s : List α × List Access) : Option (List α × List Access) :=
  (readAt working_buffer i).bind fun cell => cell.bind fun x =>
  (writeAt s.1 i x).bind fun b =>
  some (b, s.2 ++ [Access.readWorking i, Access.writeBuffer i])

/-- The function `merge` with its accesses logged: the buffer after the call
and the accesses made, in order. -/
def mergeLogged {α : Type} [LT α] [DecidableRel ((· < ·) : α → α → Prop)]
    (buffer : List α) (start1 size1 size2 : Nat) : Option (List α × List Access) :=
  let working_buffer : List (Option α) := List.replicate (size1 + size2) none
  let start2 := start1 + size1
  (mergeLoopLogged buffer start1 start2 size1 size2 (size1 + size2) 0 0 working_buffer []).bind
    fun (count1, count2, w, log) =>
  (forLoop (fillLeftLogged buffer start1 count2) count1 (size1 - count1) (w, log)).bind fun s =>
  (forLoop (fillRightLogged buffer start2 count1) count2 (size2 - count2) s).bind fun s =>
  forLoop (copyBackLogged s.1) 0 (size1 + size2) (buffer, s.2)

/-! ## Specification-level vocabulary -/

/-- The log of the filling of the scratch array so far: a write is logged
for every cell that holds a value, and no read of the scratch array. -/
def fillInvariant {α : Type} (w : List (Option α)) (log : List Access) : Prop :=
  (∀ k x, w[k]? = some (some x) → Access.writeWorking k ∈ log)
    ∧ ∀ i, Access.readWorking i ∉ log

/-- An element with a mark of the run it lies in, compared by its key alone:
elements that compare equal stay distinguishable, as `+0.0` and `-0.0` are. -/
structure Tagged (κ : Type) where
  /-- The value `<` looks at. -/
  key : κ
  /-- Whether the element lies in the left run. -/
  fromLeft : Bool
  deriving DecidableEq

/-- The order of tagged elements is that of their keys. -/
instance Tagged.instLT {κ : Type} [LT κ] : LT (Tagged κ) :=
  ⟨fun a b => a.key < b.key⟩

/-- The comparison of tagged elements is decidable when that of keys is. -/
instance Tagged.instDecidableLT {κ : Type} [LT κ]
    [DecidableRel ((· < ·) : κ → κ → Prop)] :
    DecidableRel ((· < ·) : Tagged κ → Tagged κ → Prop) :=
  fun a b => inferInstanceAs (Decidable (a.key < b.key))

/-- The comparison `x1 < x2` of line 25 as a Boolean switch. -/
def ltb {α : Type} [LT α] [DecidableRel ((· < ·) : α → α → Prop)] (a b : α) : Bool :=
  decide (a < b)

/-! ## Lemmas on array accesses -/

theorem run_length {α : Type} (buffer : List α) (start size : Nat)
    (h : start + size ≤ buffer.length) : (run buffer start size).length = size := by
  simp [run]; omega

theorem readAt_run {α : Type} (buffer : List α) (start size c : Nat) (hc : c < size) :
    readAt buffer (start + c) = (run buffer start size)[c]? := by
  simp [readAt, run, List.getElem?_take, hc, List.getElem?_drop]

theorem drop_of_getElem? {β : Type} (l : List β) (c : Nat) (x : β) (h : l[c]? = some x) :
    l.drop c = x :: l.drop (c + 1) := by
  obtain ⟨hlt, hx⟩ := List.getElem?_eq_some.mp h
  rw [List.drop_eq_getElem_cons hlt, hx]

theorem writeAt_fresh {α : Type} (pre : List α) (k : Nat) (x : α) :
    writeAt (pre.map some ++ List.replicate (k + 1) none) pre.length (some x)
      = some ((pre ++ [x]).map some ++ List.replicate k none) := by
  have h1 : (pre.map some).length ≤ pre.length := by simp
  simp [writeAt, List.set_append_right _ _ h1, List.replicate_succ]

theorem writeAt_filled {α : Type} (done rest : List α) (y x : α) :
    writeAt (done ++ y :: rest) done.length x = some (done ++ x :: rest) := by
  simp [writeAt]

/-! ## The loops of `merge` -/

/-- The main loop: started with `count1 + count2` cells written, it returns
with one run exhausted and the cells written so far still followed by what a
functional merge of the unread parts would append. -/
theorem mergeLoop_spec {α : Type} [LT α] [DecidableRel ((· < ·) : α → α → Prop)]
    (buffer : List α) (start1 size1 size2 : Nat)
    (hb : start1 + size1 + size2 ≤ buffer.length) :
    ∀ (fuel c1 c2 : Nat) (pre : List α) (k : Nat),
      c1 ≤ size1 → c2 ≤ size2 → (size1 - c1) + (size2 - c2) ≤ fuel →
      pre.length = c1 + c2 → pre.length + k = size1 + size2 →
      ∃ (d1 d2 : Nat) (out : List α) (j : Nat),
        mergeLoop buffer start1 (start1 + size1) size1 size2 fuel c1 c2
            (pre.map some ++ List.replicate k none)
          = some (d1, d2, out.map some ++ List.replicate j none)
        ∧ d1 ≤ size1 ∧ d2 ≤ size2 ∧ (d1 = size1 ∨ d2 = size2)
        ∧ out.length = d1 + d2 ∧ out.length + j = size1 + size2
        ∧ out ++ List.merge ((run buffer start1 size1).drop d1)
              ((run buffer (start1 + size1) size2).drop d2) ltb
            = pre ++ List.merge ((run buffer start1 size1).drop c1)
              ((run buffer (start1 + size1) size2).drop c2) ltb := by
  intro fuel
  induction fuel with
  | zero =>
    intro c1 c2 pre k h1 h2 hf hp hk
    refine ⟨c1, c2, pre, k, ?_, h1, h2, ?_, hp, hk, rfl⟩
    · have hg : ¬ (c1 < size1 ∧ c2 < size2) := by omega
      simp [mergeLoop, hg]
    · omega
  | succ n ih =>
    intro c1 c2 pre k h1 h2 hf hp hk
    by_cases hg : c1 < size1 ∧ c2 < size2
    · have hA := run_length buffer start1 size1 (by omega)
      have hB := run_length buffer (start1 + size1) size2 (by omega)
      obtain ⟨x1, hx1⟩ : ∃ x, (run buffer start1 size1)[c1]? = some x :=
        ⟨_, List.getElem?_eq_getElem (by omega)⟩
      obtain ⟨x2, hx2⟩ : ∃ x, (run buffer (start1 + size1) size2)[c2]? = some x :=
        ⟨_, List.getElem?_eq_getElem (by omega)⟩
      have hr1 : readAt buffer (start1 + c1) = some x1 := by
        rw [readAt_run buffer start1 size1 c1 hg.1, hx1]
      have hr2 : readAt buffer (start1 + size1 + c2) = some x2 := by
        rw [readAt_run buffer (start1 + size1) size2 c2 hg.2, hx2]
      obtain ⟨k', rfl⟩ : ∃ k', k = k' + 1 := ⟨k - 1, by omega⟩
      have hd1 := drop_of_getElem? _ _ _ hx1
      have hd2 := drop_of_getElem? _ _ _ hx2
      by_cases hlt : x1 < x2
      · obtain ⟨d1, d2, out, j, hrun, e1, e2, e3, e4, e5, e6⟩ :=
          ih (c1 + 1) c2 (pre ++ [x1]) k' (by omega) h2 (by omega) (by simp; omega)
            (by simp; omega)
        refine ⟨d1, d2, out, j, ?_, e1, e2, e3, e4, e5, ?_⟩
        · simp only [mergeLoop, hg, and_self, if_true, hr1, hr2, Option.some_bind, hlt, ← hp,
            writeAt_fresh]
          exact hrun
        · rw [e6, hd1, hd2, List.cons_merge_cons_pos ltb _ _ (by simpa [ltb] using hlt)]
          simp [hd2]
      · obtain ⟨d1, d2, out, j, hrun, e1, e2, e3, e4, e5, e6⟩ :=
          ih c1 (c2 + 1) (pre ++ [x2]) k' h1 (by omega) (by omega) (by simp; omega)
            (by simp; omega)
        refine ⟨d1, d2, out, j, ?_, e1, e2, e3, e4, e5, ?_⟩
        · simp only [mergeLoop, hg, and_self, if_true, hr1, hr2, Option.some_bind, hlt, if_false,
            ← hp, writeAt_fresh]
          exact hrun
        · rw [e6, hd1, hd2, List.cons_merge_cons_neg ltb _ _ (by simpa [ltb] using hlt)]
          simp [hd1]
    · refine ⟨c1, c2, pre, k, ?_, h1, h2, ?_, hp, hk, rfl⟩
      · simp [mergeLoop, hg]
      · omega

theorem forLoop_fillLeft {α : Type} (buffer : List α) (start1 size1 count2 : Nat)
    (hb : start1 + size1 ≤ buffer.length) :
    ∀ (n c : Nat) (pre : List α) (k : Nat),
      c + n ≤ size1 → pre.length = c + count2 → n ≤ k →
      forLoop (fillLeft buffer start1 count2) c n (pre.map some ++ List.replicate k none)
        = some ((pre ++ ((run buffer start1 size1).drop c).take n).map some
            ++ List.replicate (k - n) none) := by
  intro n
  induction n with
  | zero => intro c pre k _ _ _; simp [forLoop]
  | succ n ih =>
    intro c pre k h1 hp hk
    have hA := run_length buffer start1 size1 hb
    obtain ⟨x, hx⟩ : ∃ x, (run buffer start1 size1)[c]? = some x :=
      ⟨_, List.getElem?_eq_getElem (by omega)⟩
    have hr : readAt buffer (start1 + c) = some x := by
      rw [readAt_run buffer start1 size1 c (by omega), hx]
    obtain ⟨k', rfl⟩ : ∃ k', k = k' + 1 := ⟨k - 1, by omega⟩
    simp only [forLoop, fillLeft, hr, Option.some_bind, ← hp, writeAt_fresh]
    rw [ih (c + 1) (pre ++ [x]) k' (by omega) (by simp; omega) (by omega),
      drop_of_getElem? _ _ _ hx]
    simp

theorem forLoop_fillRight {α : Type} (buffer : List α) (start2 size2 count1 : Nat)
    (hb : start2 + size2 ≤ buffer.length) :
    ∀ (n c : Nat) (pre : List α) (k : Nat),
      c + n ≤ size2 → pre.length = count1 + c → n ≤ k →
      forLoop (fillRight buffer start2 count1) c n (pre.map some ++ List.replicate k none)
        = some ((pre ++ ((run buffer start2 size2).drop c).take n).map some
            ++ List.replicate (k - n) none) := by
  intro n
  induction n with
  | zero => intro c pre k _ _ _; simp [forLoop]
  | succ n ih =>
    intro c pre k h1 hp hk
    have hB := run_length buffer start2 size2 hb
    obtain ⟨x, hx⟩ : ∃ x, (run buffer start2 size2)[c]? = some x :=
      ⟨_, List.getElem?_eq_getElem (by omega)⟩
    have hr : readAt buffer (start2 + c) = some x := by
      rw [readAt_run buffer start2 size2 c (by omega), hx]
    obtain ⟨k', rfl⟩ : ∃ k', k = k' + 1 := ⟨k - 1, by omega⟩
    simp only [forLoop, fillRight, hr, Option.some_bind, ← hp, writeAt_fresh]
    rw [ih (c + 1) (pre ++ [x]) k' (by omega) (by simp; omega) (by omega),
      drop_of_getElem? _ _ _ hx]
    simp

theorem forLoop_copyBack {α : Type} (w : List α) :
    ∀ (n : Nat) (done tail rest : List α),
      tail.length = n → done.length + n ≤ w.length →
      forLoop (copyBack (w.map some)) done.length n (done ++ tail ++ rest)
        = some (done ++ (w.drop done.length).take n ++ rest) := by
  intro n
  induction n with
  | zero =>
    intro done tail rest ht _
    have : tail = [] := List.length_eq_zero.mp ht
    simp [forLoop, this]
  | succ n ih =>
    intro done tail rest ht hw
    obtain ⟨y, tail', rfl⟩ : ∃ y t, tail = y :: t := by
      cases tail with
      | nil => simp at ht
      | cons y t => exact ⟨y, t, rfl⟩
    obtain ⟨x, hx⟩ : ∃ x, w[done.length]? = some x :=
      ⟨_, List.getElem?_eq_getElem (by omega)⟩
    have hr : readAt (w.map some) done.length = some (some x) := by
      simp [readAt, hx]
    have hstep : copyBack (w.map some) done.length (done ++ y :: tail' ++ rest)
        = some ((done ++ [x]) ++ tail' ++ rest) := by
      simp only [copyBack, hr, Option.some_bind, List.append_assoc, List.cons_append,
        writeAt_filled]
      simp
    have hlen : (done ++ [x]).length = done.length + 1 := by simp
    simp only [forLoop, hstep, Option.some_bind]
    rw [← hlen, ih (done ++ [x]) tail' rest (by simpa using ht) (by simp; omega), hlen,
      drop_of_getElem? _ _ _ hx]
    simp

/-- The scratch array ends up holding the functional merge of the two runs,
every cell written. -/
theorem mergeWorking_eq {α : Type} [LT α] [DecidableRel ((· < ·) : α → α → Prop)]
    (buffer : List α) (start1 size1 size2 : Nat)
    (hb : start1 + size1 + size2 ≤ buffer.length) :
    mergeWorking buffer start1 size1 size2
      = some ((List.merge (run buffer start1 size1) (run buffer (start1 + size1) size2)
          ltb).map some) := by
  have hA := run_length buffer start1 size1 (by omega)
  have hB := run_length buffer (start1 + size1) size2 (by omega)
  obtain ⟨d1, d2, out, j, hrun, e1, e2, e3, e4, e5, e6⟩ :=
    mergeLoop_spec buffer start1 size1 size2 hb (size1 + size2) 0 0 [] (size1 + size2)
      (by omega) (by omega) (by omega) (by simp) (by simp)
  simp only [List.map_nil, List.nil_append, List.drop_zero] at hrun e6
  simp only [mergeWorking, hrun, Option.some_bind]
  rcases e3 with h | h
  · rw [h] at e4 e6 ⊢
    rw [Nat.sub_self]
    simp only [forLoop, Option.some_bind]
    rw [forLoop_fillRight buffer (start1 + size1) size2 size1 (by omega) (size2 - d2) d2 out j
      (by omega) e4 (by omega), ← e6]
    have hj : j - (size2 - d2) = 0 := by omega
    have h1 : List.drop size1 (run buffer start1 size1) = [] :=
      List.drop_eq_nil_of_le (by omega)
    have h2 : List.take (size2 - d2) (List.drop d2 (run buffer (start1 + size1) size2))
        = List.drop d2 (run buffer (start1 + size1) size2) :=
      List.take_of_length_le (by simp; omega)
    simp [hj, h1, h2]
  · rw [h] at e4 e6 ⊢
    rw [Nat.sub_self]
    rw [forLoop_fillLeft buffer start1 size1 size2 (by omega) (size1 - d1) d1 out j
      (by omega) e4 (by omega), ← e6]
    have hj : j - (size1 - d1) = 0 := by omega
    have h1 : List.drop size2 (run buffer (start1 + size1) size2) = [] :=
      List.drop_eq_nil_of_le (by omega)
    have h2 : List.take (size1 - d1) (List.drop d1 (run buffer start1 size1))
        = List.drop d1 (run buffer start1 size1) :=
      List.take_of_length_le (by simp; omega)
    simp [hj, h1, h2, forLoop]

/-- What `merge` computes: the functional merge of the two runs, written at
the FRONT of the buffer (line 49 writes `buffer[i]`), the rest untouched. -/
theorem merge_eq {α : Type} [LT α] [DecidableRel ((· < ·) : α → α → Prop)]
    (buffer : List α) (start1 size1 size2 : Nat)
    (hb : start1 + size1 + size2 ≤ buffer.length) :
    merge buffer start1 size1 size2
      = some (List.merge (run buffer start1 size1) (run buffer (start1 + size1) size2) ltb
          ++ buffer.drop (size1 + size2)) := by
  have hA := run_length buffer start1 size1 (by omega)
  have hB := run_length buffer (start1 + size1) size2 (by omega)
  have hlen : (List.merge (run buffer start1 size1) (run buffer (start1 + size1) size2)
      ltb).length = size1 + size2 := by
    rw [(List.merge_perm_append ltb).length_eq]; simp [hA, hB]
  simp only [merge, mergeWorking_eq buffer start1 size1 size2 hb, Option.some_bind]
  have h := forLoop_copyBack
    (List.merge (run buffer start1 size1) (run buffer (start1 + size1) size2) ltb)
    (size1 + size2) [] (buffer.take (size1 + size2)) (buffer.drop (size1 + size2))
    (by simp; omega) (by simp; omega)
  simp only [List.length_nil, List.nil_append, List.take_append_drop, List.drop_zero] at h
  rw [h, List.take_of_length_le (by omega)]

/-- The functional merge on `<` keeps two ascending lists ascending. -/
theorem sorted_merge_ltb {α : Type} [LinearOrder α] :
    ∀ (l r : List α), l.Sorted (· ≤ ·) → r.Sorted (· ≤ ·) →
      (List.merge l r ltb).Sorted (· ≤ ·) := by
  intro l
  induction l with
  | nil => intro r _ hr; simpa using hr
  | cons a l ihl =>
    intro r
    induction r with
    | nil => intro hl _; simpa using hl
    | cons b r ihr =>
      intro hl hr
      have hl' := List.sorted_cons.mp hl
      have hr' := List.sorted_cons.mp hr
      by_cases hab : a < b
      · rw [List.cons_merge_cons_pos ltb _ _ (by simpa [ltb] using hab)]
        refine List.sorted_cons.mpr ⟨?_, ihl (b :: r) hl'.2 hr⟩
        intro x hx
        rcases List.mem_merge.mp hx with h | h
        · exact hl'.1 x h
        · rcases List.mem_cons.mp h with h | h
          · exact h ▸ le_of_lt hab
          · exact le_trans (le_of_lt hab) (hr'.1 x h)
      · rw [List.cons_merge_cons_neg ltb _ _ (by simpa [ltb] using hab)]
        refine List.sorted_cons.mpr ⟨?_, ihr hl hr'.2⟩
        intro x hx
        have hba : b ≤ a := not_lt.mp hab
        rcases List.mem_merge.mp hx with h | h
        · rcases List.mem_cons.mp h with h | h
          · exact h ▸ hba
          · exact le_trans hba (hl'.1 x h)
        · exact hr'.1 x h

/-! ## The sequential merge: claims C1, C2, C8 -/

/-- C1. For a buffer over a linear order and `start1 + size1 + size2` within
it, with the runs `buffer[start1, start1+size1)` and
`buffer[start1+size1, start1+size1+size2)` ascending: `merge` returns, the
sequence it has computed in its scratch array and written back (it lands in
the first `size1 + size2` cells of the buffer) has length `size1 + size2`,
is ascending, and is a permutation of the elements of the two runs. -/
theorem merge_output_sorted_perm {α : Type} [LinearOrder α] (buffer : List α)
    (start1 size1 size2 : Nat) (hb : start1 + size1 + size2 ≤ buffer.length)
    (h1 : (run buffer start1 size1).Sorted (· ≤ ·))
    (h2 : (run buffer (start1 + size1) size2).Sorted (· ≤ ·)) :
    ∃ (merged out : List α),
      mergeWorking buffer start1 size1 size2 = some (merged.map some)
      ∧ merge buffer start1 size1 size2 = some out
      ∧ out.take (size1 + size2) = merged
      ∧ merged.length = size1 + size2
      ∧ merged.Sorted (· ≤ ·)
      ∧ merged.Perm (run buffer start1 size1 ++ run buffer (start1 + size1) size2) := by
  have hA := run_length buffer start1 size1 (by omega)
  have hB := run_length buffer (start1 + size1) size2 (by omega)
  have hperm : (List.merge (run buffer start1 size1) (run buffer (start1 + size1) size2)
      ltb).Perm (run buffer start1 size1 ++ run buffer (start1 + size1) size2) :=
    List.merge_perm_append ltb
  have hlen : (List.merge (run buffer start1 size1) (run buffer (start1 + size1) size2)
      ltb).length = size1 + size2 := by
    rw [hperm.length_eq]; simp [hA, hB]
  refine ⟨_, _, mergeWorking_eq buffer start1 size1 size2 hb,
    merge_eq buffer start1 size1 size2 hb, ?_, hlen, sorted_merge_ltb _ _ h1 h2, hperm⟩
  rw [List.take_append_of_le_length (by omega), List.take_of_length_le (by omega)]

/-- C1, at the runs `[1,3,5]` and `[2,2,4]` of the specification. -/
theorem merge_output_sorted_perm_witness :
    merge ([1, 3, 5, 2, 2, 4] : List Nat) 0 3 3 = some [1, 2, 2, 3, 4, 5]
    ∧ ∃ (merged out : List Nat),
      mergeWorking [1, 3, 5, 2, 2, 4] 0 3 3 = some (merged.map some)
      ∧ merge [1, 3, 5, 2, 2, 4] 0 3 3 = some out
      ∧ out.take (3 + 3) = merged
      ∧ merged.length = 3 + 3
      ∧ merged.Sorted (· ≤ ·)
      ∧ merged.Perm (run [1, 3, 5, 2, 2, 4] 0 3 ++ run [1, 3, 5, 2, 2, 4] (0 + 3) 3) :=
  ⟨by decide, merge_output_sorted_perm [1, 3, 5, 2, 2, 4] 0 3 3 (by decide) (by decide)
    (by decide)⟩

/-- C2, at `buffer = [5,6,1,3,2,4]`, `start = 2`, `size1 = size2 = 2`: the
runs `[1,3]` and `[2,4]` are ascending, `merge` returns `[1,2,3,4,2,4]`
(line 49 writes the result at index 0, not at `start`), and the region
`[2, 6)` then holds `[3,4,2,4]`, neither ascending nor a permutation of the
two runs. -/
theorem merge_result_not_at_start :
    (run ([5, 6, 1, 3, 2, 4] : List Nat) 2 2).Sorted (· ≤ ·)
    ∧ (run ([5, 6, 1, 3, 2, 4] : List Nat) (2 + 2) 2).Sorted (· ≤ ·)
    ∧ merge ([5, 6, 1, 3, 2, 4] : List Nat) 2 2 2 = some [1, 2, 3, 4, 2, 4]
    ∧ run ([1, 2, 3, 4, 2, 4] : List Nat) 2 (2 + 2) = [3, 4, 2, 4]
    ∧ ¬ ([3, 4, 2, 4] : List Nat).Sorted (· ≤ ·)
    ∧ ¬ ([3, 4, 2, 4] : List Nat).Perm (run [5, 6, 1, 3, 2, 4] 2 (2 + 2)) := by
  decide

/-- C8, at `buffer = [1,2,3]`, `start = 1`, `size = 2`: merging the run
`[2,3]` with an empty run on either side returns `[2,3,3]` (the copy-back of
line 49 writes at index 0 and overlaps the run), so the region `[1, 3)`
holds `[3,3]`, not `[2,3]`. -/
theorem merge_empty_run_overwrites :
    run ([1, 2, 3] : List Nat) 1 2 = [2, 3]
    ∧ merge ([1, 2, 3] : List Nat) 1 2 0 = some [2, 3, 3]
    ∧ merge ([1, 2, 3] : List Nat) 1 0 2 = some [2, 3, 3]
    ∧ run ([2, 3, 3] : List Nat) 1 2 = [3, 3] := by
  decide

/-! ## The tree-merge loop: lemmas -/

theorem treeRound_count (process_id : Int) (round : Nat) (st : LoopState) :
    (treeRound process_id round st).count = st.count := by
  unfold treeRound; split <;> rfl

theorem treeRound_rounds (process_id : Int) (round : Nat) (st : LoopState) :
    (treeRound process_id round st).rounds = st.rounds ++ [round] := by
  unfold treeRound; split <;> rfl

theorem roundGuard_iff (num_proc round : Nat) :
    roundGuard num_proc round = true ↔ round < Nat.clog 2 num_proc := by
  simp [roundGuard, Nat.pow_lt_iff_lt_clog]

theorem clog_two_le_self (n : Nat) : Nat.clog 2 n ≤ n :=
  (Nat.le_pow_iff_clog_le (by decide)).mp (le_of_lt (Nat.lt_two_pow n))

/-- With fuel for the rounds still to run, the loop returns, having run its
body for `round, round + 1, ..., clog 2 num_proc - 1` and left `count` alone. -/
theorem treeLoop_spec (process_id : Int) (num_proc : Nat) :
    ∀ (fuel round : Nat) (st : LoopState), Nat.clog 2 num_proc ≤ round + fuel →
      ∃ st', treeLoop process_id num_proc fuel round st = some st'
        ∧ st'.rounds = st.rounds ++ List.range' round (Nat.clog 2 num_proc - round)
        ∧ st'.count = st.count := by
  intro fuel
  induction fuel with
  | zero =>
    intro round st h
    have hg : ¬ (roundGuard num_proc round = true) := by
      rw [roundGuard_iff]; omega
    have h0 : Nat.clog 2 num_proc - round = 0 := by omega
    exact ⟨st, by simp [treeLoop, hg], by simp [h0], rfl⟩
  | succ n ih =>
    intro round st h
    by_cases hg : roundGuard num_proc round = true
    · obtain ⟨st', h1, h2, h3⟩ := ih (round + 1) (treeRound process_id round st) (by omega)
      have hlt := (roundGuard_iff num_proc round).mp hg
      have hsub : Nat.clog 2 num_proc - round = (Nat.clog 2 num_proc - (round + 1)) + 1 := by
        omega
      refine ⟨st', by simp [treeLoop, hg, h1], ?_, ?_⟩
      · rw [h2, treeRound_rounds, hsub, List.range'_succ]; simp
      · rw [h3, treeRound_count]
    · have h0 : Nat.clog 2 num_proc - round = 0 := by
        rw [roundGuard_iff] at hg; omega
      exact ⟨st, by simp [treeLoop, hg], by simp [h0], rfl⟩

theorem treeMerge_spec (process_id : Int) (num_proc : Nat) :
    ∃ st, treeMerge process_id num_proc = some st
      ∧ st.rounds = List.range (Nat.clog 2 num_proc) ∧ st.count = 0 := by
  obtain ⟨st, h1, h2, h3⟩ := treeLoop_spec process_id num_proc num_proc 0
    { count := 0, buffer := none, calls := [], rounds := [] }
    (by have := clog_two_le_self num_proc; omega)
  exact ⟨st, h1, by simpa [List.range_eq_range'] using h2, h3⟩

/-! ## The tree-merge loop: claims C4, C5, C6 -/

/-- C4. The loop never assigns `count`: for every rank and every number of
processes it returns with `count = 0`. At `num_proc = 2`, rank 0 ends with
`count = 0` (not a run of length 256) after a probe on itself and a receive
of 0 elements from rank -1. -/
theorem treeMerge_count_stays_zero :
    (∀ (process_id : Int) (num_proc : Nat),
      ∃ st, treeMerge process_id num_proc = some st ∧ st.count = 0)
    ∧ treeMerge 0 2 = some
        { count := 0, buffer := some 0,
          calls := [MpiCall.probe 0 1, MpiCall.recv 0 (-1) 1], rounds := [0] } := by
  refine ⟨fun process_id num_proc => ?_, by decide⟩
  obtain ⟨st, h1, _, h3⟩ := treeMerge_spec process_id num_proc
  exact ⟨st, h1, h3⟩

/-- C5, at the instances of the claim: the destination passed to
`MPI_Send` is `recv_rank = trunc(i / 2^r)`, not `i - 2^r`. With 2 processes
rank 1 sends to rank 1; with 4 processes ranks 1 and 3 send to themselves in
round 0 and rank 2 sends to rank 1 in round 1; with 8 processes rank 4 sends
to rank 1 in round 2. -/
theorem treeMerge_send_destination :
    (treeMerge 1 2).map (fun st => st.calls) = some [MpiCall.send 0 1 1]
    ∧ (treeMerge 1 4).map (fun st => st.calls)
        = some [MpiCall.send 0 1 1, MpiCall.probe 1 1, MpiCall.recv 0 0 1]
    ∧ (treeMerge 3 4).map (fun st => st.calls) = some [MpiCall.send 0 3 1]
    ∧ (treeMerge 2 4).map (fun st => st.calls)
        = some [MpiCall.probe 2 1, MpiCall.recv 0 1 1, MpiCall.send 0 1 1]
    ∧ (treeMerge 4 8).map (fun st => st.calls)
        = some [MpiCall.probe 4 1, MpiCall.recv 0 3 1, MpiCall.probe 4 1, MpiCall.recv 0 1 1,
            MpiCall.send 0 1 1]
    ∧ (role 1 0 = Role.send ∧ recv_rank 1 0 = 1 ∧ (1 : Int) - 2 ^ 0 = 0) := by
  decide

/-- C6. For `num_proc ≥ 1` and every rank the loop returns after running its
body exactly `⌈log2 num_proc⌉` times, for `round = 0, 1, ...` in order; the
guard `2 ^ round < num_proc` is the comparison `round < log2(num_proc)` in
the reals; and for `num_proc = 2 ^ k` the body runs exactly `k` times.
Neither `N` nor the array is an input of the loop. -/
theorem treeMerge_round_count (process_id : Int) (num_proc : Nat) (hP : 1 ≤ num_proc) :
    ∃ st, treeMerge process_id num_proc = some st
      ∧ st.rounds = List.range (Nat.clog 2 num_proc)
      ∧ (st.rounds.length : Int) = ⌈Real.logb 2 (num_proc : ℝ)⌉
      ∧ (∀ round : Nat,
          roundGuard num_proc round = true ↔ (round : ℝ) < Real.logb 2 (num_proc : ℝ))
      ∧ (∀ k : Nat, num_proc = 2 ^ k → st.rounds.length = k) := by
  obtain ⟨st, h1, h2, _⟩ := treeMerge_spec process_id num_proc
  refine ⟨st, h1, h2, ?_, ?_, ?_⟩
  · have h : ⌈Real.logb ((2 : Nat) : ℝ) (num_proc : ℝ)⌉ = Int.clog 2 (num_proc : ℝ) :=
      Real.ceil_logb_natCast (by positivity)
    rw [Int.clog_natCast] at h
    rw [h2, List.length_range]
    exact_mod_cast h.symm
  · intro round
    have hpos : (0 : ℝ) < (num_proc : ℝ) := by exact_mod_cast hP
    rw [Real.lt_logb_iff_rpow_lt (by norm_num) hpos, Real.rpow_natCast]
    simp only [roundGuard, decide_eq_true_eq]
    exact_mod_cast Iff.rfl
  · intro k hk
    rw [h2, List.length_range, hk, Nat.clog_pow 2 k (by decide)]

/-- C6, with 8 processes: three rounds. -/
theorem treeMerge_round_count_witness :
    ∃ st, treeMerge 3 8 = some st
      ∧ st.rounds = List.range (Nat.clog 2 8)
      ∧ (st.rounds.length : Int) = ⌈Real.logb 2 ((8 : Nat) : ℝ)⌉
      ∧ (∀ round : Nat,
          roundGuard 8 round = true ↔ (round : ℝ) < Real.logb 2 ((8 : Nat) : ℝ))
      ∧ (∀ k : Nat, 8 = 2 ^ k → st.rounds.length = k) :=
  treeMerge_round_count 3 8 (by decide)

/-! ## The roles of a round: claim C10 -/

theorem role_zero (round : Nat) : role 0 round = Role.receive := by
  simp [role, recv_rank]

/-- For a rank `i ≥ 1` the tests of lines 159 and 169 are tests on natural
numbers. -/
theorem role_natCast (i round : Nat) (hi : 1 ≤ i) :
    role (i : Int) round
      = if (i / 2 ^ round) % 2 = 0 then Role.receive
        else if ((i - 1) / 2 ^ round) % 2 = 0 then Role.send
        else Role.idle := by
  have h2 : (2 : Int) ^ round = ((2 ^ round : Nat) : Int) := by push_cast; rfl
  have h1 : (i : Int) - 1 = ((i - 1 : Nat) : Int) := by omega
  have e1 : ∀ q : Nat, (Int.tmod (q : Int) 2 = 0) ↔ q % 2 = 0 := by
    intro q
    have := Int.ofNat_tmod q 2
    constructor
    · intro h; have h' : ((q % 2 : Nat) : Int) = 0 := by rw [this]; exact h
      exact_mod_cast h'
    · intro h; have h' : ((q % 2 : Nat) : Int) = 0 := by exact_mod_cast h
      rw [this] at h'; exact h'
  simp only [role, recv_rank, source_rank, h1, h2, ← Int.ofNat_tdiv, e1]

theorem div_pow_of_mul (m q : Nat) (hq : 1 ≤ q) : (m * q) / q = m :=
  Nat.mul_div_cancel m (by omega)

theorem pred_div_of_mul (m q : Nat) (hq : 1 ≤ q) (hm : 1 ≤ m) : (m * q - 1) / q = m - 1 := by
  obtain ⟨m', rfl⟩ : ∃ m', m = m' + 1 := ⟨m - 1, by omega⟩
  have : (m' + 1) * q - 1 = (q - 1) + q * m' := by
    have : (m' + 1) * q = q * m' + q := by ring
    omega
  rw [this, Nat.add_mul_div_left _ _ (by omega), Nat.div_eq_of_lt (by omega)]
  simp

/-- The role at round `r` of a rank that is a multiple of `2 ^ r`. -/
theorem role_of_multiple (m r : Nat) :
    role ((m * 2 ^ r : Nat) : Int) r = if m % 2 = 0 then Role.receive else Role.send := by
  have hq : 1 ≤ 2 ^ r := Nat.one_le_two_pow
  rcases Nat.eq_zero_or_pos m with h0 | hpos
  · subst h0; simp [role_zero]
  · have hi : 1 ≤ m * 2 ^ r := Nat.mul_pos hpos hq
    rw [role_natCast _ _ hi, div_pow_of_mul m _ hq, pred_div_of_mul m _ hq hpos]
    by_cases hm : m % 2 = 0
    · simp [hm]
    · have : (m - 1) % 2 = 0 := by omega
      simp [hm, this]

/-- A rank that has not taken the send branch before round `r` is a multiple
of `2 ^ r`. -/
theorem dvd_of_active (i : Nat) :
    ∀ r : Nat, (∀ r', r' < r → role (i : Int) r' ≠ Role.send) → 2 ^ r ∣ i := by
  intro r
  induction r with
  | zero => intro _; simp
  | succ r ih =>
    intro h
    obtain ⟨m, hm⟩ := ih (fun r' hr' => h r' (by omega))
    have hrole := h r (by omega)
    have hi : i = m * 2 ^ r := by rw [hm]; ring
    rw [hi, role_of_multiple] at hrole
    have hev : m % 2 = 0 := by
      by_contra hodd
      simp [hodd] at hrole
    obtain ⟨c, hc⟩ : 2 ∣ m := Nat.dvd_of_mod_eq_zero hev
    exact ⟨c, by rw [hm, hc]; ring⟩

/-- C10. With `2 ^ k` processes, at a round `r < k` a rank `i < 2 ^ k` that
has not taken the send branch in any earlier round takes exactly one of the
two branches in the body the loop runs for that round: the receive branch,
when `trunc(i / 2^r)` is even, or the send branch, when `trunc(i / 2^r)` is
odd and `trunc((i-1) / 2^r)` is even; it is never idle, and the two branches
exclude each other. -/
theorem active_rank_has_one_role (k r i : Nat) (hr : r < k) (_hi : i < 2 ^ k)
    (hactive : ∀ r', r' < r → role (i : Int) r' ≠ Role.send) :
    (∃ st, treeMerge (i : Int) (2 ^ k) = some st ∧ r ∈ st.rounds)
    ∧ ((role (i : Int) r = Role.receive ∧ Int.tmod (recv_rank (i : Int) r) 2 = 0)
        ∨ (role (i : Int) r = Role.send ∧ Int.tmod (recv_rank (i : Int) r) 2 ≠ 0
            ∧ Int.tmod (source_rank (i : Int) r) 2 = 0))
    ∧ ¬ (role (i : Int) r = Role.receive ∧ role (i : Int) r = Role.send)
    ∧ role (i : Int) r ≠ Role.idle := by
  have hrole : role (i : Int) r = Role.receive ∨ role (i : Int) r = Role.send := by
    obtain ⟨m, hm⟩ := dvd_of_active i r hactive
    have hi' : i = m * 2 ^ r := by rw [hm]; ring
    rw [hi', role_of_multiple]
    by_cases h : m % 2 = 0 <;> simp [h]
  refine ⟨?_, ?_, ?_, ?_⟩
  · obtain ⟨st, h1, h2, _⟩ := treeMerge_spec (i : Int) (2 ^ k)
    refine ⟨st, h1, ?_⟩
    rw [h2, Nat.clog_pow 2 k (by decide)]
    exact List.mem_range.mpr hr
  · rcases hrole with h | h
    · left
      refine ⟨h, ?_⟩
      unfold role at h
      by_contra hne
      rw [if_neg hne] at h
      split at h <;> cases h
    · right
      refine ⟨h, ?_⟩
      unfold role at h
      by_cases h1 : Int.tmod (recv_rank (i : Int) r) 2 = 0
      · rw [if_pos h1] at h; cases h
      · rw [if_neg h1] at h
        by_cases h2 : Int.tmod (source_rank (i : Int) r) 2 = 0
        · exact ⟨h1, h2⟩
        · rw [if_neg h2] at h; cases h
  · rintro ⟨h1, h2⟩
    rw [h1] at h2; cases h2
  · rcases hrole with h | h <;> rw [h] <;> decide

/-- C10, with 8 processes: rank 4 in round 2, after receiving in rounds 0
and 1. -/
theorem active_rank_has_one_role_witness :
    (∀ r', r' < 2 → role ((4 : Nat) : Int) r' ≠ Role.send)
    ∧ (∃ st, treeMerge ((4 : Nat) : Int) (2 ^ 3) = some st ∧ 2 ∈ st.rounds)
    ∧ ((role ((4 : Nat) : Int) 2 = Role.receive
          ∧ Int.tmod (recv_rank ((4 : Nat) : Int) 2) 2 = 0)
        ∨ (role ((4 : Nat) : Int) 2 = Role.send
            ∧ Int.tmod (recv_rank ((4 : Nat) : Int) 2) 2 ≠ 0
            ∧ Int.tmod (source_rank ((4 : Nat) : Int) 2) 2 = 0))
    ∧ ¬ (role ((4 : Nat) : Int) 2 = Role.receive ∧ role ((4 : Nat) : Int) 2 = Role.send)
    ∧ role ((4 : Nat) : Int) 2 ≠ Role.idle :=
  ⟨by decide, active_rank_has_one_role 3 2 4 (by decide) (by decide) (by decide)⟩

/-! ## The coordinator: claims C3, C7, C9 -/

theorem forLoop_sendChunk {α : Type} (listSize : Nat) :
    ∀ (n i : Nat) (st : Rank0State α),
      forLoop (sendChunk listSize) i n st
        = some { st with
            calls := st.calls ++ (List.range' i n).map fun k =>
              Call.send (run st.master_list (listSize * k) listSize) listSize (k : Int) 0 } := by
  intro n
  induction n with
  | zero => intro i st; simp [forLoop]
  | succ n ih =>
    intro i st
    simp only [forLoop, sendChunk, Option.some_bind, ih, List.range'_succ, List.map_cons]
    simp

theorem flatten_chunks {α : Type} (l : List α) (L : Nat) :
    ∀ (n i : Nat),
      ((List.range' i n).map fun k => run l (L * k) L).flatten = run l (L * i) (n * L) := by
  intro n
  induction n with
  | zero => intro i; simp [run]
  | succ n ih =>
    intro i
    rw [List.range'_succ, List.map_cons, List.flatten_cons, ih (i + 1)]
    have h : (n + 1) * L = L + n * L := by ring
    simp only [run]
    rw [h, List.take_add, List.drop_drop, Nat.mul_succ]

/-- C7. For `1 ≤ P`, `P` dividing `N = 256` and an array of `N` elements,
with `L = N / P`: the distribution loop returns having issued exactly `P - 1`
calls and left the array alone; the `k`-th of them (`1 ≤ k < P`) is a send to
rank `k` with tag 0 of the `L` elements `master_list[k*L, (k+1)*L)`; and rank
0's slice `[0, L)` followed by the data of the sends in order is the whole
array. -/
theorem distribute_partition {α : Type} (master_list : List α) (P : Nat) (hP : 1 ≤ P)
    (hdiv : P ∣ N) (hlen : master_list.length = N) :
    ∃ st, distribute master_list P = some st
      ∧ st.master_list = master_list
      ∧ st.calls.length = P - 1
      ∧ (∀ k, 1 ≤ k → k < P →
          st.calls[k - 1]?
              = some (Call.send (run master_list (k * (N / P)) (N / P)) (N / P) (k : Int) 0)
            ∧ (run master_list (k * (N / P)) (N / P)).length = N / P)
      ∧ run master_list 0 (N / P) ++ (st.calls.map Call.data).flatten = master_list := by
  have hPL : P * (N / P) = N := Nat.mul_div_cancel' hdiv
  refine ⟨_, forLoop_sendChunk (N / P) (P - 1) 1 _, rfl, by simp, ?_, ?_⟩
  · intro k hk1 hk2
    constructor
    · have hk : k - 1 < P - 1 := by omega
      have e : 1 + (k - 1) = k := by omega
      simp [List.getElem?_map, List.getElem?_range' _ _ hk, e, Nat.mul_comm]
    · apply run_length
      have : (k + 1) * (N / P) ≤ P * (N / P) := Nat.mul_le_mul_right _ (by omega)
      have e : (k + 1) * (N / P) = k * (N / P) + N / P := by ring
      omega
  · have hmap : (List.map Call.data
        (List.map (fun k : Nat =>
          Call.send (run master_list (N / P * k) (N / P)) (N / P) (k : Int) 0)
          (List.range' 1 (P - 1))))
        = (List.range' 1 (P - 1)).map fun k => run master_list (N / P * k) (N / P) := by
      simp [Call.data, Function.comp_def]
    simp only [List.nil_append, hmap, flatten_chunks]
    have e : N / P + (P - 1) * (N / P) = master_list.length := by
      rw [hlen]
      have : (P - 1) * (N / P) + N / P = P * (N / P) := by
        rw [← Nat.succ_mul]; congr 1; omega
      omega
    simp only [run, List.drop_zero, Nat.mul_one]
    rw [← List.take_add, e, List.take_of_length_le (le_refl _)]

/-- C7, with 4 processes on the array `0, 1, ..., 255`. -/
theorem distribute_partition_witness :
    ∃ st, distribute (List.range 256) 4 = some st
      ∧ st.master_list = List.range 256
      ∧ st.calls.length = 4 - 1
      ∧ (∀ k, 1 ≤ k → k < 4 →
          st.calls[k - 1]?
              = some (Call.send (run (List.range 256) (k * (N / 4)) (N / 4)) (N / 4) (k : Int) 0)
            ∧ (run (List.range 256) (k * (N / 4)) (N / 4)).length = N / 4)
      ∧ run (List.range 256) 0 (N / 4) ++ (st.calls.map Call.data).flatten = List.range 256 :=
  distribute_partition (List.range 256) 4 (by decide) (by decide) (by simp [N])

/-- C9. With one process and an array of `N = 256` elements the coordinator
returns having issued no call at all (no send, no receive, no `merge`), the
array it prints is the result of `std::sort` over the whole input, ascending
and a permutation of the input, and its tree-merge loop returns without
running its body or issuing a call. -/
theorem coordinator_single_process {α : Type} [LinearOrder α] (incoming : Nat → List α)
    (master_list : List α) (hlen : master_list.length = N) :
    ∃ st ts, coordinator incoming master_list 1 = some st
      ∧ st.calls = []
      ∧ st.master_list = stdSort master_list
      ∧ st.master_list.Sorted (· ≤ ·)
      ∧ st.master_list.Perm master_list
      ∧ treeMerge 0 1 = some ts ∧ ts.rounds = [] ∧ ts.calls = [] := by
  have h1 : List.take 256 master_list = master_list :=
    List.take_of_length_le (by rw [hlen]; decide)
  have h2 : List.drop 256 master_list = [] :=
    List.drop_eq_nil_of_le (by rw [hlen]; decide)
  have h3 : 256 ≤ master_list.length := by rw [hlen]; decide
  refine ⟨{ master_list := stdSort master_list, calls := [] },
    { count := 0, buffer := none, calls := [], rounds := [] }, ?_, rfl, rfl, ?_, ?_,
    by decide, rfl, rfl⟩
  · simp [coordinator, distribute, forLoop, localSort, mergePasses, mergePassesLoop, N, h1, h2,
      h3]
  · exact List.sorted_insertionSort _ _
  · exact List.perm_insertionSort _ _

/-- C9, on the array `255, 254, ..., 0`. -/
theorem coordinator_single_process_witness :
    ∃ st ts, coordinator (fun _ => []) (List.range 256).reverse 1 = some st
      ∧ st.calls = []
      ∧ st.master_list = stdSort (List.range 256).reverse
      ∧ st.master_list.Sorted (· ≤ ·)
      ∧ st.master_list.Perm (List.range 256).reverse
      ∧ treeMerge 0 1 = some ts ∧ ts.rounds = [] ∧ ts.calls = [] :=
  coordinator_single_process (fun _ => []) (List.range 256).reverse (by simp [N])

/-- The shape of a call of `merge`: it returns, keeps the length, leaves the
cells from `size1 + size2` on alone, and every element of the new buffer is
an element of the old one at an index `≥ start1` or `≥ size1 + size2`. -/
theorem merge_shape {α : Type} [LT α] [DecidableRel ((· < ·) : α → α → Prop)]
    (b : List α) (s a c : Nat)
    (hb : s + a + c ≤ b.length) :
    ∃ out, merge b s a c = some out
      ∧ out.length = b.length
      ∧ (∀ n, a + c ≤ n → out.drop n = b.drop n)
      ∧ (∀ x, x ∈ out → x ∈ b.drop s ∨ x ∈ b.drop (a + c)) := by
  have hA := run_length b s a (by omega)
  have hB := run_length b (s + a) c (by omega)
  have hperm : (List.merge (run b s a) (run b (s + a) c) ltb).Perm
      (run b s a ++ run b (s + a) c) := List.merge_perm_append ltb
  have hlen : (List.merge (run b s a) (run b (s + a) c) ltb).length = a + c := by
    rw [hperm.length_eq]; simp [hA, hB]
  refine ⟨_, merge_eq b s a c hb, ?_, ?_, ?_⟩
  · simp [hlen]; omega
  · intro n hn
    rw [List.drop_append_eq_append_drop, List.drop_eq_nil_of_le (by omega), hlen,
      List.drop_drop]
    simp only [List.nil_append]
    congr 1
    omega
  · intro x hx
    rcases List.mem_append.mp hx with h | h
    · left
      rcases List.mem_merge.mp h with h | h
      · exact List.mem_of_mem_take h
      · have h' : x ∈ List.drop (s + a) b := List.mem_of_mem_take h
        rw [← List.drop_drop] at h'
        exact List.mem_of_mem_drop h'
    · exact Or.inr h

theorem mergePasses_eight_unfold {α : Type} [LinearOrder α] (l : List α) :
    mergePasses 8 { master_list := l, calls := [] }
      = (merge l 0 32 32).bind fun b1 =>
        (merge b1 64 32 32).bind fun b2 =>
        (merge b2 128 32 32).bind fun b3 =>
        (merge b3 192 32 32).bind fun b4 =>
        (merge b4 0 64 64).bind fun b5 =>
        (merge b5 128 64 64).bind fun b6 =>
        (merge b6 0 128 128).bind fun b7 =>
        some { master_list := b7
               calls := [Call.merge 0 32 32, Call.merge 64 32 32, Call.merge 128 32 32,
                 Call.merge 192 32 32, Call.merge 0 64 64, Call.merge 128 64 64,
                 Call.merge 0 128 128] } := by
  simp [mergePasses, mergePassesLoop, mergeRow, N, Option.bind_assoc]

/-- With 8 processes the merge passes return after seven calls of `merge`,
and every element of the final array comes from the second half of the
array they started on: the first half is overwritten. -/
theorem mergePasses_eight_loses_front {α : Type} [LinearOrder α] (l : List α)
    (hlen : l.length = 256) :
    ∃ st, mergePasses 8 { master_list := l, calls := [] } = some st
      ∧ st.calls = [Call.merge 0 32 32, Call.merge 64 32 32, Call.merge 128 32 32,
          Call.merge 192 32 32, Call.merge 0 64 64, Call.merge 128 64 64,
          Call.merge 0 128 128]
      ∧ st.master_list.length = 256
      ∧ ∀ x, x ∈ st.master_list → x ∈ l.drop 128 := by
  obtain ⟨b1, e1, n1, d1, _⟩ := merge_shape l 0 32 32 (by omega)
  obtain ⟨b2, e2, n2, d2, _⟩ := merge_shape b1 64 32 32 (by omega)
  obtain ⟨b3, e3, n3, d3, _⟩ := merge_shape b2 128 32 32 (by omega)
  obtain ⟨b4, e4, n4, d4, _⟩ := merge_shape b3 192 32 32 (by omega)
  obtain ⟨b5, e5, n5, d5, _⟩ := merge_shape b4 0 64 64 (by omega)
  obtain ⟨b6, e6, n6, _, m6⟩ := merge_shape b5 128 64 64 (by omega)
  obtain ⟨b7, e7, n7, _, m7⟩ := merge_shape b6 0 128 128 (by omega)
  refine ⟨{ master_list := b7,
             calls := [Call.merge 0 32 32, Call.merge 64 32 32, Call.merge 128 32 32,
               Call.merge 192 32 32, Call.merge 0 64 64, Call.merge 128 64 64,
               Call.merge 0 128 128] }, ?_, rfl, by show b7.length = 256; omega, ?_⟩
  · rw [mergePasses_eight_unfold]
    simp only [e1, e2, e3, e4, e5, e6, e7, Option.some_bind]
  · intro x hx
    have h6 : x ∈ b6 := by
      rcases m7 x hx with h | h
      · simpa using h
      · exact List.mem_of_mem_drop h
    have h5 : x ∈ b5.drop 128 := by
      rcases m6 x h6 with h | h
      · exact h
      · exact h
    rw [d5 128 (by omega), d4 128 (by omega), d3 128 (by omega), d2 128 (by omega),
      d1 128 (by omega)] at h5
    exact h5

set_option maxRecDepth 100000 in
theorem range_chunks_sorted :
    ∀ k, k < 8 → (run (List.range 256) (32 * k) 32).Sorted (· ≤ ·) := by
  decide!

set_option maxRecDepth 100000 in
theorem zero_not_in_back_half : 0 ∉ (List.range 256).drop 128 := by
  decide!

/-- C3, with 8 processes on the array `0, 1, ..., 255`, whose 8 chunks of
length 32 are ascending: the merge passes return after the seven calls of
`merge` of lines 112-119 with an array of 256 elements that does not contain
`0`, so it is not a permutation of the input. Each call with `start1 > 0`
has written its result at index 0 (line 49), over the results before it. -/
theorem mergePasses_eight_not_permutation :
    (∀ k, k < 8 → (run (List.range 256) (32 * k) 32).Sorted (· ≤ ·))
    ∧ ∃ st, mergePasses 8 { master_list := List.range 256, calls := [] } = some st
      ∧ st.calls = [Call.merge 0 32 32, Call.merge 64 32 32, Call.merge 128 32 32,
          Call.merge 192 32 32, Call.merge 0 64 64, Call.merge 128 64 64,
          Call.merge 0 128 128]
      ∧ st.master_list.length = 256
      ∧ 0 ∉ st.master_list
      ∧ ¬ st.master_list.Perm (List.range 256) := by
  obtain ⟨st, h0, h1, h2, h3⟩ := mergePasses_eight_loses_front (List.range 256) (by simp)
  have hz : 0 ∉ st.master_list := fun h => zero_not_in_back_half (h3 0 h)
  exact ⟨range_chunks_sorted, st, h0, h1, h2, hz,
    fun hperm => hz (hperm.mem_iff.mpr (by simp))⟩

/-! ## The tree-merge loop after a send: claims C11, C12, C13 -/

/-- Rank 1 is below `2 ^ r` from round 1 on, so it takes the receive branch. -/
theorem role_one_later (r : Nat) (hr : 1 ≤ r) : role 1 r = Role.receive := by
  have h := role_natCast 1 r (le_refl 1)
  have hq : 1 / 2 ^ r = 0 := Nat.div_eq_of_lt (Nat.one_lt_two_pow (by omega))
  simpa [hq] using h

/-- C11, with 4 processes, rank 1, rounds 0 and 1: rank 1 takes the send
branch in round 0 and the receive branch in round 1 (`recv_rank = trunc(1/2)
= 0` is even), where it probes and receives; the loop has no exit after a
send. Rank 1 takes the receive branch in every round after round 0. -/
theorem sender_receives_in_later_round :
    role 1 0 = Role.send
    ∧ role 1 1 = Role.receive
    ∧ recv_rank 1 1 = 0
    ∧ (treeMerge 1 4).map (fun st => st.calls)
        = some [MpiCall.send 0 1 1, MpiCall.probe 1 1, MpiCall.recv 0 0 1]
    ∧ (∀ r : Nat, 1 ≤ r → role 1 r = Role.receive) :=
  ⟨by decide, by decide, by decide, by decide, role_one_later⟩

/-- C12, at the instances of the claim: the source passed to `MPI_Recv` is
`source_rank = trunc((i-1) / 2^r)`, not `i + 2^r`, and the partner's send is
not addressed to `i`. With 2 processes rank 0 receives from rank -1 while
rank 1 sends to rank 1; with 4 processes rank 0 receives from -1 and then
from 0 (itself), and rank 2 receives from 1 while rank 3 sends to rank 3. -/
theorem receive_source_is_not_partner :
    source_rank 0 0 = -1
    ∧ (treeMerge 0 2).map (fun st => st.calls)
        = some [MpiCall.probe 0 1, MpiCall.recv 0 (-1) 1]
    ∧ (role 1 0 = Role.send ∧ recv_rank 1 0 = 1)
    ∧ (treeMerge 0 4).map (fun st => st.calls)
        = some [MpiCall.probe 0 1, MpiCall.recv 0 (-1) 1, MpiCall.probe 0 1,
            MpiCall.recv 0 0 1]
    ∧ (role 2 0 = Role.receive ∧ source_rank 2 0 = 1)
    ∧ (role 3 0 = Role.send ∧ recv_rank 3 0 = 3) := by
  decide

theorem treeRound_send_count (process_id : Int) (round : Nat) (st : LoopState)
    (h0 : st.count = 0)
    (h : ∀ c d t, MpiCall.send c d t ∈ st.calls → c = 0) :
    ∀ c d t, MpiCall.send c d t ∈ (treeRound process_id round st).calls → c = 0 := by
  intro c d t hmem
  unfold treeRound at hmem
  split at hmem
  · simp only [List.mem_append, List.mem_cons, List.mem_singleton, List.not_mem_nil,
      or_false] at hmem
    rcases hmem with h1 | h1 | h1
    · exact h c d t h1
    · cases h1
    · cases h1
  · simp only [List.mem_append, List.mem_singleton] at hmem
    rcases hmem with h1 | h1
    · exact h c d t h1
    · cases h1; exact h0
  · exact h c d t hmem

theorem treeLoop_send_count (process_id : Int) (num_proc : Nat) :
    ∀ (fuel round : Nat) (st st' : LoopState),
      treeLoop process_id num_proc fuel round st = some st' → st.count = 0 →
      (∀ c d t, MpiCall.send c d t ∈ st.calls → c = 0) →
      ∀ c d t, MpiCall.send c d t ∈ st'.calls → c = 0 := by
  intro fuel
  induction fuel with
  | zero =>
    intro round st st' hrun _ h
    unfold treeLoop at hrun
    split at hrun
    · cases hrun
    · cases hrun; exact h
  | succ n ih =>
    intro round st st' hrun h0 h
    unfold treeLoop at hrun
    split at hrun
    · exact ih (round + 1) _ st' hrun (by rw [treeRound_count]; exact h0)
        (treeRound_send_count process_id round st h0 h)
    · cases hrun; exact h

/-- C13. Every `MPI_Send` of the loop is passed `count = 0`, for every rank
and number of processes: `count` is never assigned. With 2 processes rank 1
sends 0 elements in round 0, where the claim has `(N / 2) * 2 ^ 0 = 128`. -/
theorem treeMerge_send_count_zero :
    (∀ (process_id : Int) (num_proc : Nat) (st : LoopState),
      treeMerge process_id num_proc = some st →
      ∀ c d t, MpiCall.send c d t ∈ st.calls → c = 0)
    ∧ role 1 0 = Role.send
    ∧ (treeMerge 1 2).map (fun st => st.calls) = some [MpiCall.send 0 1 1]
    ∧ N / 2 * 2 ^ 0 = 128 := by
  refine ⟨fun process_id num_proc st hrun => ?_, by decide, by decide, by decide⟩
  exact treeLoop_send_count process_id num_proc num_proc 0 _ st hrun rfl
    (fun c d t hmem => by cases hmem)

/-! ## The one round in which a rank sends: claim C18 -/

/-- A rank `i ≥ 1` takes the send branch at round `r` exactly when it is an
odd multiple of `2 ^ r`. -/
theorem role_send_iff (i r : Nat) (hi : 1 ≤ i) :
    role (i : Int) r = Role.send ↔ ∃ m, m % 2 = 1 ∧ i = m * 2 ^ r := by
  constructor
  · intro h
    rw [role_natCast i r hi] at h
    by_cases h1 : (i / 2 ^ r) % 2 = 0
    · rw [if_pos h1] at h; cases h
    · rw [if_neg h1] at h
      by_cases h2 : ((i - 1) / 2 ^ r) % 2 = 0
      · have hdvd : 2 ^ r ∣ i := by
          by_contra hnd
          have e : i - 1 + 1 = i := by omega
          have := @Nat.succ_div_of_not_dvd (i - 1) (2 ^ r) (by rw [e]; exact hnd)
          rw [e] at this
          rw [this] at h1
          exact h1 h2
        refine ⟨i / 2 ^ r, by omega, ?_⟩
        exact (Nat.div_mul_cancel hdvd).symm
      · rw [if_neg h2] at h; cases h
  · rintro ⟨m, hm, rfl⟩
    rw [role_of_multiple]
    have : ¬ m % 2 = 0 := by omega
    simp [this]

/-- The exponent of 2 in an odd multiple of `2 ^ r` is `r`. -/
theorem padicValNat_odd_mul (m r : Nat) (hm : m % 2 = 1) : padicValNat 2 (m * 2 ^ r) = r := by
  have hm0 : m ≠ 0 := by omega
  have h2 : ¬ 2 ∣ m := by omega
  rw [padicValNat.mul hm0 (by positivity), padicValNat.prime_pow,
    padicValNat.eq_zero_of_not_dvd h2, Nat.zero_add]

/-- C18. With `2 ^ k` processes a rank `0 < i < 2 ^ k` takes the send branch
in exactly one round: the round `r < k` that is the number of trailing zero
bits of `i` (`i = m * 2 ^ r` with `m` odd), a round the loop runs; rank 0
takes the receive branch, hence not the send branch, in every round. -/
theorem rank_sends_in_one_round (k i : Nat) (hpos : 0 < i) (hi : i < 2 ^ k) :
    (∃ r, r < k
      ∧ r = padicValNat 2 i
      ∧ (∃ m, m % 2 = 1 ∧ i = m * 2 ^ r)
      ∧ role (i : Int) r = Role.send
      ∧ (∀ r', role (i : Int) r' = Role.send → r' = r)
      ∧ ∃ st, treeMerge (i : Int) (2 ^ k) = some st ∧ r ∈ st.rounds)
    ∧ (∀ r', role 0 r' = Role.receive ∧ role 0 r' ≠ Role.send) := by
  constructor
  · obtain ⟨v, hv⟩ : ∃ v, v = padicValNat 2 i := ⟨_, rfl⟩
    have hdv : 2 ^ v ∣ i := hv ▸ pow_padicValNat_dvd
    obtain ⟨c, hc⟩ := hdv
    have hi' : i = c * 2 ^ v := by rw [hc]; ring
    have hcodd : c % 2 = 1 := by
      by_contra hev
      obtain ⟨d, hd⟩ : 2 ∣ c := Nat.dvd_of_mod_eq_zero (by omega)
      have hdvd : 2 ^ (v + 1) ∣ i := ⟨d, by rw [hc, hd]; ring⟩
      have hle : v + 1 ≤ padicValNat 2 i :=
        (padicValNat_dvd_iff_le (by omega : i ≠ 0)).mp hdvd
      omega
    have hsend : role (i : Int) v = Role.send :=
      (role_send_iff i _ hpos).mpr ⟨c, hcodd, hi'⟩
    have hlt : v < k := by
      have h1 : 2 ^ v ≤ i := Nat.le_of_dvd hpos ⟨c, hc⟩
      exact (Nat.pow_lt_pow_iff_right (by decide)).mp (lt_of_le_of_lt h1 hi)
    refine ⟨v, hlt, hv, ⟨c, hcodd, hi'⟩, hsend, ?_, ?_⟩
    · intro r' hr'
      obtain ⟨m, hm, hm'⟩ := (role_send_iff i r' hpos).mp hr'
      have := padicValNat_odd_mul m r' hm
      rw [← hm'] at this
      omega
    · obtain ⟨st, h1, h2, _⟩ := treeMerge_spec (i : Int) (2 ^ k)
      refine ⟨st, h1, ?_⟩
      rw [h2, Nat.clog_pow 2 k (by decide)]
      exact List.mem_range.mpr hlt
  · intro r'
    rw [role_zero]
    exact ⟨rfl, by decide⟩

/-- C18, with 8 processes: rank 6 sends in round 1 only. -/
theorem rank_sends_in_one_round_witness :
    (∃ r, r < 3
      ∧ r = padicValNat 2 6
      ∧ (∃ m, m % 2 = 1 ∧ 6 = m * 2 ^ r)
      ∧ role ((6 : Nat) : Int) r = Role.send
      ∧ (∀ r', role ((6 : Nat) : Int) r' = Role.send → r' = r)
      ∧ ∃ st, treeMerge ((6 : Nat) : Int) (2 ^ 3) = some st ∧ r ∈ st.rounds)
    ∧ (∀ r', role 0 r' = Role.receive ∧ role 0 r' ≠ Role.send) :=
  rank_sends_in_one_round 3 6 (by decide) (by decide)

/-! ## What `merge` leaves alone and what it keeps: claims C16, C17, C19 -/

theorem run_append_run {α : Type} (b : List α) (s a c : Nat) :
    run b s a ++ run b (s + a) c = run b s (a + c) := by
  simp only [run]
  rw [List.take_add, List.drop_drop]

/-- C16. For `start1 + size1 + size2` within the buffer, `merge` returns a
buffer of the same length in which every cell of index `≥ size1 + size2`
holds the value it held before: only the cells `[0, size1 + size2)` can
change, whatever `start1` is. -/
theorem merge_frame {α : Type} [LT α] [DecidableRel ((· < ·) : α → α → Prop)]
    (buffer : List α) (start1 size1 size2 : Nat)
    (hb : start1 + size1 + size2 ≤ buffer.length) :
    ∃ out, merge buffer start1 size1 size2 = some out
      ∧ out.length = buffer.length
      ∧ ∀ i, size1 + size2 ≤ i → out[i]? = buffer[i]? := by
  obtain ⟨out, h1, h2, h3, _⟩ := merge_shape buffer start1 size1 size2 hb
  refine ⟨out, h1, h2, fun i hi => ?_⟩
  have h := congrArg (fun l : List α => l[0]?) (h3 i hi)
  simpa [List.getElem?_drop] using h

/-- C16, on `[9,9,1,3,5,2,2,4]` with `start1 = 2` and two runs of length 3. -/
theorem merge_frame_witness :
    ∃ out, merge ([9, 9, 1, 3, 5, 2, 2, 4] : List Nat) 2 3 3 = some out
      ∧ out.length = ([9, 9, 1, 3, 5, 2, 2, 4] : List Nat).length
      ∧ ∀ i, 3 + 3 ≤ i → out[i]? = ([9, 9, 1, 3, 5, 2, 2, 4] : List Nat)[i]? :=
  merge_frame [9, 9, 1, 3, 5, 2, 2, 4] 2 3 3 (by decide)

/-- C17. For `start1 + size1 + size2` within the buffer and runs that need
not be ascending, `merge` returns, and the `size1 + size2` values it has put
in its scratch array and written back are a permutation of the values of
`buffer[start1, start1 + size1 + size2)`. -/
theorem merge_writes_permutation {α : Type} [LT α] [DecidableRel ((· < ·) : α → α → Prop)]
    (buffer : List α) (start1 size1 size2 : Nat)
    (hb : start1 + size1 + size2 ≤ buffer.length) :
    ∃ (merged out : List α),
      mergeWorking buffer start1 size1 size2 = some (merged.map some)
      ∧ merge buffer start1 size1 size2 = some out
      ∧ out.take (size1 + size2) = merged
      ∧ merged.length = size1 + size2
      ∧ merged.Perm (run buffer start1 (size1 + size2)) := by
  have hA := run_length buffer start1 size1 (by omega)
  have hB := run_length buffer (start1 + size1) size2 (by omega)
  have hperm : (List.merge (run buffer start1 size1) (run buffer (start1 + size1) size2)
      ltb).Perm (run buffer start1 size1 ++ run buffer (start1 + size1) size2) :=
    List.merge_perm_append ltb
  have hlen : (List.merge (run buffer start1 size1) (run buffer (start1 + size1) size2)
      ltb).length = size1 + size2 := by
    rw [hperm.length_eq]; simp [hA, hB]
  refine ⟨_, _, mergeWorking_eq buffer start1 size1 size2 hb,
    merge_eq buffer start1 size1 size2 hb, ?_, hlen, ?_⟩
  · rw [List.take_append_of_le_length (by omega), List.take_of_length_le (by omega)]
  · rw [← run_append_run]; exact hperm

/-- C17, on the runs `[5,1]` and `[4,2]`, neither ascending. -/
theorem merge_writes_permutation_witness :
    ∃ (merged out : List Nat),
      mergeWorking ([7, 5, 1, 4, 2] : List Nat) 1 2 2 = some (merged.map some)
      ∧ merge ([7, 5, 1, 4, 2] : List Nat) 1 2 2 = some out
      ∧ out.take (2 + 2) = merged
      ∧ merged.length = 2 + 2
      ∧ merged.Perm (run ([7, 5, 1, 4, 2] : List Nat) 1 (2 + 2)) :=
  merge_writes_permutation [7, 5, 1, 4, 2] 1 2 2 (by decide)

/-- C19. With 2 processes and an array of `N = 256` elements whose halves
`[0, 128)` and `[128, 256)` are ascending, the merge passes of rank 0 return
after the single call `merge(master_list, 0, 128, 128)`, and the array is
then ascending, of length `N`, and a permutation of the two halves (of the
array before the passes). -/
theorem mergePasses_two_sorted {α : Type} [LinearOrder α] (master_list : List α)
    (hlen : master_list.length = N)
    (h1 : (run master_list 0 128).Sorted (· ≤ ·))
    (h2 : (run master_list 128 128).Sorted (· ≤ ·)) :
    ∃ st, mergePasses 2 { master_list := master_list, calls := [] } = some st
      ∧ st.calls = [Call.merge 0 128 128]
      ∧ st.master_list.length = N
      ∧ st.master_list.Sorted (· ≤ ·)
      ∧ st.master_list.Perm (run master_list 0 128 ++ run master_list 128 128)
      ∧ st.master_list.Perm master_list := by
  have hlen' : master_list.length = 256 := hlen
  have hm := merge_eq master_list 0 128 128 (by omega)
  have hd : List.drop (128 + 128) master_list = [] := List.drop_eq_nil_of_le (by omega)
  rw [hd, List.append_nil] at hm
  simp only [Nat.zero_add] at hm
  have hperm : (List.merge (run master_list 0 128) (run master_list 128 128) ltb).Perm
      (run master_list 0 128 ++ run master_list 128 128) := List.merge_perm_append ltb
  have hall : run master_list 0 128 ++ run master_list 128 128 = master_list := by
    have := run_append_run master_list 0 128 128
    simp only [Nat.zero_add] at this
    rw [this]
    simp only [run, List.drop_zero]
    exact List.take_of_length_le (by omega)
  refine ⟨{ master_list := List.merge (run master_list 0 128) (run master_list 128 128) ltb,
            calls := [Call.merge 0 128 128] }, ?_, rfl, ?_, ?_, hperm, ?_⟩
  · simp [mergePasses, mergePassesLoop, mergeRow, N, hm]
  · show (List.merge _ _ ltb).length = N
    rw [hperm.length_eq, hall, hlen]
  · exact sorted_merge_ltb _ _ h1 h2
  · show (List.merge _ _ ltb).Perm master_list
    have hp := hperm
    rw [hall] at hp
    exact hp

set_option maxRecDepth 100000 in
/-- C19, on the even numbers below 256 followed by the odd ones. -/
theorem mergePasses_two_sorted_witness :
    ∃ st, mergePasses 2
        { master_list := (List.range 128).map (fun n => 2 * n)
            ++ (List.range 128).map (fun n => 2 * n + 1),
          calls := [] } = some st
      ∧ st.calls = [Call.merge 0 128 128]
      ∧ st.master_list.length = N
      ∧ st.master_list.Sorted (· ≤ ·)
      ∧ st.master_list.Perm
          (run ((List.range 128).map (fun n => 2 * n)
              ++ (List.range 128).map (fun n => 2 * n + 1)) 0 128
            ++ run ((List.range 128).map (fun n => 2 * n)
              ++ (List.range 128).map (fun n => 2 * n + 1)) 128 128)
      ∧ st.master_list.Perm
          ((List.range 128).map (fun n => 2 * n) ++ (List.range 128).map (fun n => 2 * n + 1)) :=
  mergePasses_two_sorted
    ((List.range 128).map (fun n => 2 * n) ++ (List.range 128).map (fun n => 2 * n + 1))
    (by simp [N]) (by decide!) (by decide!)

/-! ## Ties in `merge`: claim C14 -/

/-- The functional merge on `<` of a left-marked list and a right-marked
list, the second ascending, never puts a left element before a right element
unless its key is strictly smaller. -/
theorem merge_tagged_order {κ : Type} [LinearOrder κ] :
    ∀ (l r : List (Tagged κ)),
      (∀ x, x ∈ l → x.fromLeft = true) → (∀ x, x ∈ r → x.fromLeft = false) →
      r.Pairwise (fun x y => x.key ≤ y.key) →
      (List.merge l r ltb).Pairwise
        (fun x y => x.fromLeft = true → y.fromLeft = false → x.key < y.key) := by
  intro l
  induction l with
  | nil =>
    intro r _ hR _
    rw [List.nil_merge]
    exact List.pairwise_of_forall_mem_list fun x hx y _ hxl _ => by
      rw [hR x hx] at hxl; cases hxl
  | cons a l ihl =>
    intro r
    induction r with
    | nil =>
      intro hL _ _
      rw [List.merge_right]
      exact List.pairwise_of_forall_mem_list fun x _ y hy _ hyr => by
        rw [hL y hy] at hyr; cases hyr
    | cons b r ihr =>
      intro hL hR hs
      have hs' := List.pairwise_cons.mp hs
      by_cases hab : a < b
      · have hkey : a.key < b.key := hab
        rw [List.cons_merge_cons_pos ltb _ _ (by simpa [ltb] using hab)]
        refine List.pairwise_cons.mpr ⟨?_, ihl (b :: r)
          (fun x hx => hL x (List.mem_cons_of_mem _ hx)) hR hs⟩
        intro y hy _ hyr
        rcases List.mem_merge.mp hy with h | h
        · rw [hL y (List.mem_cons_of_mem _ h)] at hyr; cases hyr
        · rcases List.mem_cons.mp h with h | h
          · rw [h]; exact hkey
          · exact lt_of_lt_of_le hkey (hs'.1 y h)
      · rw [List.cons_merge_cons_neg ltb _ _ (by simpa [ltb] using hab)]
        refine List.pairwise_cons.mpr ⟨?_, ihr hL
          (fun x hx => hR x (List.mem_cons_of_mem _ hx)) hs'.2⟩
        intro y _ hbl _
        rw [hR b (List.mem_cons_self _ _)] at hbl; cases hbl

/-- C14 as stated fails on the runs `[1]` (left) and `[1]` (right): with the
two heads equal the loop writes the right run's element and advances
`count2`, not `count1`, and the right run's element comes first in the
result. -/
theorem merge_tie_takes_right_example :
    mergeLoop ([⟨1, true⟩, ⟨1, false⟩] : List (Tagged Nat)) 0 1 1 1 1 0 0 [none, none]
      = some (0, 1, [some ⟨1, false⟩, none])
    ∧ merge ([⟨1, true⟩, ⟨1, false⟩] : List (Tagged Nat)) 0 1 1
      = some [⟨1, false⟩, ⟨1, true⟩]
    ∧ ¬ (∃ w, mergeLoop ([⟨1, true⟩, ⟨1, false⟩] : List (Tagged Nat)) 0 1 1 1 1 0 0
          [none, none] = some (1, 0, w))
    ∧ ¬ (merge ([⟨1, true⟩, ⟨1, false⟩] : List (Tagged Nat)) 0 1 1
          = some [⟨1, true⟩, ⟨1, false⟩]) := by
  refine ⟨by decide, by decide, ?_, by decide⟩
  rintro ⟨w, hw⟩
  have h : mergeLoop ([⟨1, true⟩, ⟨1, false⟩] : List (Tagged Nat)) 0 1 1 1 1 0 0
      [none, none]
      = some (0, 1, [some ⟨1, false⟩, none]) := by decide
  rw [h] at hw
  cases hw

/-- C14, amended. In `merge`, when both runs still have elements and the
head of the left run is not `<` the head of the right run, in particular
when the two have equal keys, the loop writes the right run's element and
advances `count2`, not `count1`. Hence for a left run and an ascending right
run, marked as such, `merge` returns and no element of the left run comes
before an element of the right run in the result unless its key is strictly
smaller: among elements of equal key those of the right run come first. -/
theorem merge_ties_take_right {κ : Type} [LinearOrder κ] (buffer : List (Tagged κ))
    (start1 size1 size2 : Nat) (hb : start1 + size1 + size2 ≤ buffer.length)
    (hL : ∀ x, x ∈ run buffer start1 size1 → x.fromLeft = true)
    (hR : ∀ x, x ∈ run buffer (start1 + size1) size2 → x.fromLeft = false)
    (_h1 : (run buffer start1 size1).Pairwise (fun x y => x.key ≤ y.key))
    (h2 : (run buffer (start1 + size1) size2).Pairwise (fun x y => x.key ≤ y.key)) :
    (∀ (fuel count1 count2 : Nat) (w : List (Option (Tagged κ))) (x1 x2 : Tagged κ),
        count1 < size1 → count2 < size2 →
        readAt buffer (start1 + count1) = some x1 →
        readAt buffer (start1 + size1 + count2) = some x2 →
        x1.key = x2.key →
        mergeLoop buffer start1 (start1 + size1) size1 size2 (fuel + 1) count1 count2 w
          = (writeAt w (count1 + count2) (some x2)).bind fun w' =>
              mergeLoop buffer start1 (start1 + size1) size1 size2 fuel count1 (count2 + 1) w')
    ∧ ∃ (merged out : List (Tagged κ)),
        merge buffer start1 size1 size2 = some out
        ∧ out.take (size1 + size2) = merged
        ∧ merged.Perm (run buffer start1 size1 ++ run buffer (start1 + size1) size2)
        ∧ merged.Pairwise
            (fun x y => x.fromLeft = true → y.fromLeft = false → x.key < y.key) := by
  constructor
  · intro fuel count1 count2 w x1 x2 hc1 hc2 hr1 hr2 hkey
    have hlt : ¬ x1 < x2 := fun h => by
      have h' : x1.key < x2.key := h
      rw [hkey] at h'
      exact lt_irrefl _ h'
    simp only [mergeLoop, hc1, hc2, and_self, if_true, hr1, hr2, Option.some_bind, hlt,
      if_false]
  · have hA := run_length buffer start1 size1 (by omega)
    have hB := run_length buffer (start1 + size1) size2 (by omega)
    have hperm : (List.merge (run buffer start1 size1) (run buffer (start1 + size1) size2)
        ltb).Perm (run buffer start1 size1 ++ run buffer (start1 + size1) size2) :=
      List.merge_perm_append ltb
    have hlen : (List.merge (run buffer start1 size1) (run buffer (start1 + size1) size2)
        ltb).length = size1 + size2 := by
      rw [hperm.length_eq]; simp [hA, hB]
    refine ⟨_, _, merge_eq buffer start1 size1 size2 hb, ?_, hperm,
      merge_tagged_order _ _ hL hR h2⟩
    rw [List.take_append_of_le_length (by omega), List.take_of_length_le (by omega)]

/-- C14, amended, on the left run `1, 2, 2` and the right run `2, 2, 3`. -/
theorem merge_ties_take_right_witness :
    merge ([⟨1, true⟩, ⟨2, true⟩, ⟨2, true⟩, ⟨2, false⟩, ⟨2, false⟩, ⟨3, false⟩] :
        List (Tagged Nat)) 0 3 3
      = some [⟨1, true⟩, ⟨2, false⟩, ⟨2, false⟩, ⟨2, true⟩, ⟨2, true⟩, ⟨3, false⟩]
    ∧ ((∀ (fuel count1 count2 : Nat) (w : List (Option (Tagged Nat))) (x1 x2 : Tagged Nat),
        count1 < 3 → count2 < 3 →
        readAt ([⟨1, true⟩, ⟨2, true⟩, ⟨2, true⟩, ⟨2, false⟩, ⟨2, false⟩, ⟨3, false⟩] :
          List (Tagged Nat)) (0 + count1) = some x1 →
        readAt ([⟨1, true⟩, ⟨2, true⟩, ⟨2, true⟩, ⟨2, false⟩, ⟨2, false⟩, ⟨3, false⟩] :
          List (Tagged Nat)) (0 + 3 + count2) = some x2 →
        x1.key = x2.key →
        mergeLoop ([⟨1, true⟩, ⟨2, true⟩, ⟨2, true⟩, ⟨2, false⟩, ⟨2, false⟩, ⟨3, false⟩] :
            List (Tagged Nat)) 0 (0 + 3) 3 3 (fuel + 1) count1 count2 w
          = (writeAt w (count1 + count2) (some x2)).bind fun w' =>
              mergeLoop ([⟨1, true⟩, ⟨2, true⟩, ⟨2, true⟩, ⟨2, false⟩, ⟨2, false⟩, ⟨3, false⟩] :
                List (Tagged Nat)) 0 (0 + 3) 3 3 fuel count1 (count2 + 1) w')
      ∧ ∃ (merged out : List (Tagged Nat)),
        merge ([⟨1, true⟩, ⟨2, true⟩, ⟨2, true⟩, ⟨2, false⟩, ⟨2, false⟩, ⟨3, false⟩] :
          List (Tagged Nat)) 0 3 3 = some out
        ∧ out.take (3 + 3) = merged
        ∧ merged.Perm
            (run ([⟨1, true⟩, ⟨2, true⟩, ⟨2, true⟩, ⟨2, false⟩, ⟨2, false⟩, ⟨3, false⟩] :
                List (Tagged Nat)) 0 3
              ++ run ([⟨1, true⟩, ⟨2, true⟩, ⟨2, true⟩, ⟨2, false⟩, ⟨2, false⟩, ⟨3, false⟩] :
                List (Tagged Nat)) (0 + 3) 3)
        ∧ merged.Pairwise
            (fun x y => x.fromLeft = true → y.fromLeft = false → x.key < y.key)) :=
  ⟨by decide,
    merge_ties_take_right
      [⟨1, true⟩, ⟨2, true⟩, ⟨2, true⟩, ⟨2, false⟩, ⟨2, false⟩, ⟨3, false⟩] 0 3 3
      (by decide) (by decide) (by decide) (by decide) (by decide)⟩

/-! ## The array accesses of `merge`: claim C15 -/

/-- A loop on a state with a log runs as the loop on the state alone when
each body does. -/
theorem forLoop_map {σ τ : Type} (f : σ → τ) (bodyL : Nat → σ → Option σ)
    (body : Nat → τ → Option τ) (h : ∀ i s, (bodyL i s).map f = body i (f s)) :
    ∀ (n i : Nat) (s : σ), (forLoop bodyL i n s).map f = forLoop body i n (f s) := by
  intro n
  induction n with
  | zero => intro i s; simp [forLoop]
  | succ n ih =>
    intro i s
    simp only [forLoop]
    rw [← h i s]
    cases hb : bodyL i s with
    | none => simp
    | some s' => simp [ih]

/-- A property of the state kept by every body of index in range is kept by
the loop. -/
theorem forLoop_invariant {σ : Type} (body : Nat → σ → Option σ) (Inv : σ → Prop) :
    ∀ (n lo : Nat) (s s' : σ),
      (∀ j t t', lo ≤ j → j < lo + n → Inv t → body j t = some t' → Inv t') →
      Inv s → forLoop body lo n s = some s' → Inv s' := by
  intro n
  induction n with
  | zero =>
    intro lo s s' _ hs hrun
    simp only [forLoop, Option.some.injEq] at hrun
    exact hrun ▸ hs
  | succ n ih =>
    intro lo s s' hstep hs hrun
    simp only [forLoop] at hrun
    cases hb : body lo s with
    | none => rw [hb] at hrun; cases hrun
    | some t =>
      rw [hb] at hrun
      exact ih (lo + 1) t s'
        (fun j u u' h1 h2 => hstep j u u' (by omega) (by omega))
        (hstep lo s t (le_refl _) (by omega) hs hb) hrun

theorem mergeLoopLogged_fst {α : Type} [LT α] [DecidableRel ((· < ·) : α → α → Prop)]
    (buffer : List α) (start1 start2 size1 size2 : Nat) :
    ∀ (fuel c1 c2 : Nat) (w : List (Option α)) (log : List Access),
      (mergeLoopLogged buffer start1 start2 size1 size2 fuel c1 c2 w log).map
          (fun r => (r.1, r.2.1, r.2.2.1))
        = mergeLoop buffer start1 start2 size1 size2 fuel c1 c2 w := by
  intro fuel
  induction fuel with
  | zero =>
    intro c1 c2 w log
    simp only [mergeLoopLogged, mergeLoop]
    split <;> rfl
  | succ n ih =>
    intro c1 c2 w log
    simp only [mergeLoopLogged, mergeLoop]
    split
    · cases readAt buffer (start1 + c1) with
      | none => rfl
      | some x1 =>
        cases readAt buffer (start2 + c2) with
        | none => rfl
        | some x2 =>
          simp only [Option.some_bind]
          split
          · cases writeAt w (c1 + c2) (some x1) with
            | none => rfl
            | some w' => simp only [Option.some_bind]; exact ih _ _ _ _
          · cases writeAt w (c1 + c2) (some x2) with
            | none => rfl
            | some w' => simp only [Option.some_bind]; exact ih _ _ _ _
    · rfl

/-- The main loop keeps its counters within the runs and logs accesses
within bounds only. -/
theorem mergeLoopLogged_inBounds {α : Type} [LT α] [DecidableRel ((· < ·) : α → α → Prop)]
    (buffer : List α) (start1 size1 size2 : Nat) :
    ∀ (fuel c1 c2 : Nat) (w : List (Option α)) (log : List Access)
      (r : Nat × Nat × List (Option α) × List Access),
      mergeLoopLogged buffer start1 (start1 + size1) size1 size2 fuel c1 c2 w log = some r →
      c1 ≤ size1 → c2 ≤ size2 → (∀ a, a ∈ log → a.inBounds start1 size1 size2) →
      r.1 ≤ size1 ∧ r.2.1 ≤ size2 ∧ ∀ a, a ∈ r.2.2.2 → a.inBounds start1 size1 size2 := by
  intro fuel
  induction fuel with
  | zero =>
    intro c1 c2 w log r hrun h1 h2 hlog
    simp only [mergeLoopLogged] at hrun
    split at hrun
    · cases hrun
    · cases hrun; exact ⟨h1, h2, hlog⟩
  | succ n ih =>
    intro c1 c2 w log r hrun h1 h2 hlog
    simp only [mergeLoopLogged] at hrun
    split at hrun
    · rename_i hg
      have hlog' : ∀ a, a ∈ log ++ [Access.readBuffer (start1 + c1),
          Access.readBuffer (start1 + size1 + c2), Access.writeWorking (c1 + c2)] →
          a.inBounds start1 size1 size2 := by
        intro a ha
        rcases List.mem_append.mp ha with h | h
        · exact hlog a h
        · simp only [List.mem_cons, List.mem_singleton, List.not_mem_nil, or_false] at h
          rcases h with h | h | h <;> subst h <;> simp only [Access.inBounds] <;> omega
      cases hr1 : readAt buffer (start1 + c1) with
      | none => rw [hr1] at hrun; cases hrun
      | some x1 =>
        cases hr2 : readAt buffer (start1 + size1 + c2) with
        | none => rw [hr1, hr2] at hrun; cases hrun
        | some x2 =>
          rw [hr1, hr2] at hrun
          simp only [Option.some_bind] at hrun
          split at hrun
          · cases hw : writeAt w (c1 + c2) (some x1) with
            | none => rw [hw] at hrun; cases hrun
            | some w' =>
              rw [hw] at hrun
              exact ih _ _ _ _ r hrun (by omega) h2 hlog'
          · cases hw : writeAt w (c1 + c2) (some x2) with
            | none => rw [hw] at hrun; cases hrun
            | some w' =>
              rw [hw] at hrun
              exact ih _ _ _ _ r hrun h1 (by omega) hlog'
    · cases hrun; exact ⟨h1, h2, hlog⟩

theorem fillLeftLogged_fst {α : Type} (buffer : List α) (start1 count2 i : Nat)
    (s : List (Option α) × List Access) :
    (fillLeftLogged buffer start1 count2 i s).map Prod.fst
      = fillLeft buffer start1 count2 i s.1 := by
  simp only [fillLeftLogged, fillLeft]
  cases readAt buffer (start1 + i) with
  | none => rfl
  | some x =>
    simp only [Option.some_bind]
    cases writeAt s.1 (i + count2) (some x) <;> rfl

theorem fillRightLogged_fst {α : Type} (buffer : List α) (start2 count1 i : Nat)
    (s : List (Option α) × List Access) :
    (fillRightLogged buffer start2 count1 i s).map Prod.fst
      = fillRight buffer start2 count1 i s.1 := by
  simp only [fillRightLogged, fillRight]
  cases readAt buffer (start2 + i) with
  | none => rfl
  | some x =>
    simp only [Option.some_bind]
    cases writeAt s.1 (count1 + i) (some x) <;> rfl

theorem copyBackLogged_fst {α : Type} (working_buffer : List (Option α)) (i : Nat)
    (s : List α × List Access) :
    (copyBackLogged working_buffer i s).map Prod.fst = copyBack working_buffer i s.1 := by
  simp only [copyBackLogged, copyBack]
  cases readAt working_buffer i with
  | none => rfl
  | some cell =>
    cases cell with
    | none => rfl
    | some x =>
      simp only [Option.some_bind]
      cases writeAt s.1 i x <;> rfl

/-- Dropping the log, `mergeLogged` is `merge`. -/
theorem mergeLogged_fst {α : Type} [LT α] [DecidableRel ((· < ·) : α → α → Prop)]
    (buffer : List α) (start1 size1 size2 : Nat) :
    (mergeLogged buffer start1 size1 size2).map Prod.fst
      = merge buffer start1 size1 size2 := by
  simp only [mergeLogged, merge, mergeWorking]
  rw [← mergeLoopLogged_fst buffer start1 (start1 + size1) size1 size2 (size1 + size2) 0 0
    (List.replicate (size1 + size2) none) []]
  cases mergeLoopLogged buffer start1 (start1 + size1) size1 size2 (size1 + size2) 0 0
      (List.replicate (size1 + size2) none) [] with
  | none => rfl
  | some r =>
    obtain ⟨c1, c2, w, log⟩ := r
    simp only [Option.map_some', Option.some_bind]
    rw [← forLoop_map Prod.fst (fillLeftLogged buffer start1 c2) (fillLeft buffer start1 c2)
      (fillLeftLogged_fst buffer start1 c2) (size1 - c1) c1 (w, log)]
    cases forLoop (fillLeftLogged buffer start1 c2) c1 (size1 - c1) (w, log) with
    | none => rfl
    | some s1 =>
      simp only [Option.map_some', Option.some_bind]
      rw [← forLoop_map Prod.fst (fillRightLogged buffer (start1 + size1) c1)
        (fillRight buffer (start1 + size1) c1) (fillRightLogged_fst buffer (start1 + size1) c1)
        (size2 - c2) c2 s1]
      cases forLoop (fillRightLogged buffer (start1 + size1) c1) c2 (size2 - c2) s1 with
      | none => rfl
      | some s2 =>
        simp only [Option.map_some', Option.some_bind]
        exact forLoop_map Prod.fst (copyBackLogged s2.1) (copyBack s2.1)
          (copyBackLogged_fst s2.1) (size1 + size2) 0 (buffer, s2.2)

theorem fillLeftLogged_log {α : Type} (buffer : List α) (start1 count2 i : Nat)
    (s t : List (Option α) × List Access) (h : fillLeftLogged buffer start1 count2 i s = some t) :
    t.2 = s.2 ++ [Access.readBuffer (start1 + i), Access.writeWorking (i + count2)] := by
  simp only [fillLeftLogged] at h
  cases hr : readAt buffer (start1 + i) with
  | none => rw [hr] at h; cases h
  | some x =>
    rw [hr] at h
    simp only [Option.some_bind] at h
    cases hw : writeAt s.1 (i + count2) (some x) with
    | none => rw [hw] at h; cases h
    | some w => rw [hw] at h; cases h; rfl

theorem fillRightLogged_log {α : Type} (buffer : List α) (start2 count1 i : Nat)
    (s t : List (Option α) × List Access)
    (h : fillRightLogged buffer start2 count1 i s = some t) :
    t.2 = s.2 ++ [Access.readBuffer (start2 + i), Access.writeWorking (count1 + i)] := by
  simp only [fillRightLogged] at h
  cases hr : readAt buffer (start2 + i) with
  | none => rw [hr] at h; cases h
  | some x =>
    rw [hr] at h
    simp only [Option.some_bind] at h
    cases hw : writeAt s.1 (count1 + i) (some x) with
    | none => rw [hw] at h; cases h
    | some w => rw [hw] at h; cases h; rfl

theorem copyBackLogged_log {α : Type} (working_buffer : List (Option α)) (i : Nat)
    (s t : List α × List Access) (h : copyBackLogged working_buffer i s = some t) :
    t.2 = s.2 ++ [Access.readWorking i, Access.writeBuffer i] := by
  simp only [copyBackLogged] at h
  cases hr : readAt working_buffer i with
  | none => rw [hr] at h; cases h
  | some cell =>
    rw [hr] at h
    cases cell with
    | none => cases h
    | some x =>
      simp only [Option.some_bind] at h
      cases hw : writeAt s.1 i x with
      | none => rw [hw] at h; cases h
      | some b => rw [hw] at h; cases h; rfl

/-- Every access `mergeLogged` has logged when it returns is within bounds. -/
theorem mergeLogged_inBounds {α : Type} [LT α] [DecidableRel ((· < ·) : α → α → Prop)]
    (buffer : List α) (start1 size1 size2 : Nat) (r : List α × List Access)
    (h : mergeLogged buffer start1 size1 size2 = some r) :
    ∀ a, a ∈ r.2 → a.inBounds start1 size1 size2 := by
  simp only [mergeLogged] at h
  cases h0 : mergeLoopLogged buffer start1 (start1 + size1) size1 size2 (size1 + size2) 0 0
      (List.replicate (size1 + size2) none) [] with
  | none => rw [h0] at h; cases h
  | some r0 =>
    rw [h0] at h
    obtain ⟨b1, b2, hlog0⟩ := mergeLoopLogged_inBounds buffer start1 size1 size2 _ _ _ _ _ r0 h0
      (Nat.zero_le _) (Nat.zero_le _) (fun a ha => by cases ha)
    obtain ⟨c1, c2, w, log⟩ := r0
    simp only [Option.some_bind] at h b1 b2 hlog0
    cases h1 : forLoop (fillLeftLogged buffer start1 c2) c1 (size1 - c1) (w, log) with
    | none => rw [h1] at h; cases h
    | some s1 =>
      rw [h1] at h
      simp only [Option.some_bind] at h
      have inv1 : ∀ a, a ∈ s1.2 → a.inBounds start1 size1 size2 :=
        forLoop_invariant (fillLeftLogged buffer start1 c2)
          (fun s => ∀ a, a ∈ s.2 → a.inBounds start1 size1 size2) (size1 - c1) c1 (w, log) s1
          (fun j t t' _ hj ht hbody a ha => by
            rw [fillLeftLogged_log buffer start1 c2 j t t' hbody] at ha
            rcases List.mem_append.mp ha with h' | h'
            · exact ht a h'
            · simp only [List.mem_cons, List.mem_singleton, List.not_mem_nil, or_false] at h'
              rcases h' with h' | h' <;> subst h' <;> simp only [Access.inBounds] <;> omega)
          hlog0 h1
      cases h2 : forLoop (fillRightLogged buffer (start1 + size1) c1) c2 (size2 - c2) s1 with
      | none => rw [h2] at h; cases h
      | some s2 =>
        rw [h2] at h
        simp only [Option.some_bind] at h
        have inv2 : ∀ a, a ∈ s2.2 → a.inBounds start1 size1 size2 :=
          forLoop_invariant (fillRightLogged buffer (start1 + size1) c1)
            (fun s => ∀ a, a ∈ s.2 → a.inBounds start1 size1 size2) (size2 - c2) c2 s1 s2
            (fun j t t' _ hj ht hbody a ha => by
              rw [fillRightLogged_log buffer (start1 + size1) c1 j t t' hbody] at ha
              rcases List.mem_append.mp ha with h' | h'
              · exact ht a h'
              · simp only [List.mem_cons, List.mem_singleton, List.not_mem_nil, or_false] at h'
                rcases h' with h' | h' <;> subst h' <;> simp only [Access.inBounds] <;> omega)
            inv1 h2
        exact forLoop_invariant (copyBackLogged s2.1)
          (fun s => ∀ a, a ∈ s.2 → a.inBounds start1 size1 size2) (size1 + size2) 0
          (buffer, s2.2) r
          (fun j t t' _ hj ht hbody a ha => by
            rw [copyBackLogged_log s2.1 j t t' hbody] at ha
            rcases List.mem_append.mp ha with h' | h'
            · exact ht a h'
            · simp only [List.mem_cons, List.mem_singleton, List.not_mem_nil, or_false] at h'
              rcases h' with h' | h' <;> subst h' <;> simp only [Access.inBounds] <;> omega)
          inv2 h

theorem fillInvariant_step {α : Type} (w w' : List (Option α)) (log extra : List Access)
    (i : Nat) (x : α) (hw : writeAt w i (some x) = some w')
    (hin : Access.writeWorking i ∈ extra) (hno : ∀ j, Access.readWorking j ∉ extra)
    (h : fillInvariant w log) : fillInvariant w' (log ++ extra) := by
  unfold writeAt at hw
  split at hw
  · cases hw
    constructor
    · intro k y hk
      by_cases hki : i = k
      · subst hki; exact List.mem_append_right _ hin
      · rw [List.getElem?_set_ne hki] at hk
        exact List.mem_append_left _ (h.1 k y hk)
    · intro j hj
      rcases List.mem_append.mp hj with h' | h'
      · exact h.2 j h'
      · exact hno j h'
  · cases hw

theorem mergeLoopLogged_fill {α : Type} [LT α] [DecidableRel ((· < ·) : α → α → Prop)]
    (buffer : List α) (start1 start2 size1 size2 : Nat) :
    ∀ (fuel c1 c2 : Nat) (w : List (Option α)) (log : List Access)
      (r : Nat × Nat × List (Option α) × List Access),
      mergeLoopLogged buffer start1 start2 size1 size2 fuel c1 c2 w log = some r →
      fillInvariant w log → fillInvariant r.2.2.1 r.2.2.2 := by
  intro fuel
  induction fuel with
  | zero =>
    intro c1 c2 w log r hrun hinv
    simp only [mergeLoopLogged] at hrun
    split at hrun
    · cases hrun
    · cases hrun; exact hinv
  | succ n ih =>
    intro c1 c2 w log r hrun hinv
    simp only [mergeLoopLogged] at hrun
    split at hrun
    · cases hr1 : readAt buffer (start1 + c1) with
      | none => rw [hr1] at hrun; cases hrun
      | some x1 =>
        cases hr2 : readAt buffer (start2 + c2) with
        | none => rw [hr1, hr2] at hrun; cases hrun
        | some x2 =>
          rw [hr1, hr2] at hrun
          simp only [Option.some_bind] at hrun
          split at hrun
          · cases hw : writeAt w (c1 + c2) (some x1) with
            | none => rw [hw] at hrun; cases hrun
            | some w' =>
              rw [hw] at hrun
              exact ih _ _ _ _ r hrun
                (fillInvariant_step w w' log _ _ x1 hw (by simp) (by simp) hinv)
          · cases hw : writeAt w (c1 + c2) (some x2) with
            | none => rw [hw] at hrun; cases hrun
            | some w' =>
              rw [hw] at hrun
              exact ih _ _ _ _ r hrun
                (fillInvariant_step w w' log _ _ x2 hw (by simp) (by simp) hinv)
    · cases hrun; exact hinv

theorem fillLeftLogged_fill {α : Type} (buffer : List α) (start1 count2 i : Nat)
    (s t : List (Option α) × List Access) (h : fillLeftLogged buffer start1 count2 i s = some t)
    (hinv : fillInvariant s.1 s.2) : fillInvariant t.1 t.2 := by
  simp only [fillLeftLogged] at h
  cases hr : readAt buffer (start1 + i) with
  | none => rw [hr] at h; cases h
  | some x =>
    rw [hr] at h
    simp only [Option.some_bind] at h
    cases hw : writeAt s.1 (i + count2) (some x) with
    | none => rw [hw] at h; cases h
    | some w =>
      rw [hw] at h; cases h
      exact fillInvariant_step s.1 w s.2 _ _ x hw (by simp) (by simp) hinv

theorem fillRightLogged_fill {α : Type} (buffer : List α) (start2 count1 i : Nat)
    (s t : List (Option α) × List Access)
    (h : fillRightLogged buffer start2 count1 i s = some t)
    (hinv : fillInvariant s.1 s.2) : fillInvariant t.1 t.2 := by
  simp only [fillRightLogged] at h
  cases hr : readAt buffer (start2 + i) with
  | none => rw [hr] at h; cases h
  | some x =>
    rw [hr] at h
    simp only [Option.some_bind] at h
    cases hw : writeAt s.1 (count1 + i) (some x) with
    | none => rw [hw] at h; cases h
    | some w =>
      rw [hw] at h; cases h
      exact fillInvariant_step s.1 w s.2 _ _ x hw (by simp) (by simp) hinv

/-- The log of `mergeLogged` splits in two: first the filling of the scratch
array, which writes every cell and reads none, then the copy back, which
only reads the scratch array and writes `buffer`. -/
theorem mergeLogged_written_before_read {α : Type} [LT α]
    [DecidableRel ((· < ·) : α → α → Prop)] (buffer : List α) (start1 size1 size2 : Nat)
    (hb : start1 + size1 + size2 ≤ buffer.length) (r : List α × List Access)
    (h : mergeLogged buffer start1 size1 size2 = some r) :
    ∃ fillLog copyLog : List Access, r.2 = fillLog ++ copyLog
      ∧ (∀ k, k < size1 + size2 → Access.writeWorking k ∈ fillLog)
      ∧ (∀ i, Access.readWorking i ∉ fillLog)
      ∧ (∀ a, a ∈ copyLog → ∃ i, a = Access.readWorking i ∨ a = Access.writeBuffer i) := by
  have hw := mergeWorking_eq buffer start1 size1 size2 hb
  simp only [mergeLogged] at h
  simp only [mergeWorking] at hw
  rw [← mergeLoopLogged_fst buffer start1 (start1 + size1) size1 size2 (size1 + size2) 0 0
    (List.replicate (size1 + size2) none) []] at hw
  cases h0 : mergeLoopLogged buffer start1 (start1 + size1) size1 size2 (size1 + size2) 0 0
      (List.replicate (size1 + size2) none) [] with
  | none => rw [h0] at h; cases h
  | some r0 =>
    rw [h0] at h hw
    have kinit : fillInvariant (List.replicate (size1 + size2) (none : Option α)) [] := by
      constructor
      · intro k x hk
        rw [List.getElem?_replicate] at hk
        split at hk <;> cases hk
      · intro i hi
        cases hi
    have k0 : fillInvariant r0.2.2.1 r0.2.2.2 :=
      mergeLoopLogged_fill buffer start1 (start1 + size1) size1 size2 _ _ _ _ _ r0 h0 kinit
    obtain ⟨c1, c2, w, log⟩ := r0
    simp only [Option.some_bind, Option.map_some'] at h hw k0
    rw [← forLoop_map Prod.fst (fillLeftLogged buffer start1 c2) (fillLeft buffer start1 c2)
      (fillLeftLogged_fst buffer start1 c2) (size1 - c1) c1 (w, log)] at hw
    cases h1 : forLoop (fillLeftLogged buffer start1 c2) c1 (size1 - c1) (w, log) with
    | none => rw [h1] at h; cases h
    | some s1 =>
      rw [h1] at h hw
      simp only [Option.some_bind, Option.map_some'] at h hw
      have k1 : fillInvariant s1.1 s1.2 :=
        forLoop_invariant (fillLeftLogged buffer start1 c2)
          (fun s => fillInvariant s.1 s.2) (size1 - c1) c1 (w, log) s1
          (fun j t t' _ _ ht hbody => fillLeftLogged_fill buffer start1 c2 j t t' hbody ht)
          k0 h1
      rw [← forLoop_map Prod.fst (fillRightLogged buffer (start1 + size1) c1)
        (fillRight buffer (start1 + size1) c1) (fillRightLogged_fst buffer (start1 + size1) c1)
        (size2 - c2) c2 s1] at hw
      cases h2 : forLoop (fillRightLogged buffer (start1 + size1) c1) c2 (size2 - c2) s1 with
      | none => rw [h2] at h; cases h
      | some s2 =>
        rw [h2] at h hw
        simp only [Option.some_bind, Option.map_some', Option.some.injEq] at h hw
        have k2 : fillInvariant s2.1 s2.2 :=
          forLoop_invariant (fillRightLogged buffer (start1 + size1) c1)
            (fun s => fillInvariant s.1 s.2) (size2 - c2) c2 s1 s2
            (fun j t t' _ _ ht hbody =>
              fillRightLogged_fill buffer (start1 + size1) c1 j t t' hbody ht)
            k1 h2
        have hA := run_length buffer start1 size1 (by omega)
        have hB := run_length buffer (start1 + size1) size2 (by omega)
        have hperm : (List.merge (run buffer start1 size1)
            (run buffer (start1 + size1) size2) ltb).Perm
            (run buffer start1 size1 ++ run buffer (start1 + size1) size2) :=
          List.merge_perm_append ltb
        have hlen : (List.merge (run buffer start1 size1)
            (run buffer (start1 + size1) size2) ltb).length = size1 + size2 := by
          rw [hperm.length_eq]; simp [hA, hB]
        have hcopy : ∃ rest, r.2 = s2.2 ++ rest
            ∧ ∀ a, a ∈ rest → ∃ i, a = Access.readWorking i ∨ a = Access.writeBuffer i :=
          forLoop_invariant (copyBackLogged s2.1)
            (fun s => ∃ rest, s.2 = s2.2 ++ rest
              ∧ ∀ a, a ∈ rest → ∃ i, a = Access.readWorking i ∨ a = Access.writeBuffer i)
            (size1 + size2) 0 (buffer, s2.2) r
            (fun j t t' _ _ ht hbody => by
              obtain ⟨rest, e, hrest⟩ := ht
              refine ⟨rest ++ [Access.readWorking j, Access.writeBuffer j], ?_, ?_⟩
              · rw [copyBackLogged_log s2.1 j t t' hbody, e, List.append_assoc]
              · intro a ha
                rcases List.mem_append.mp ha with h' | h'
                · exact hrest a h'
                · simp only [List.mem_cons, List.mem_singleton, List.not_mem_nil,
                    or_false] at h'
                  rcases h' with h' | h'
                  · exact ⟨j, Or.inl h'⟩
                  · exact ⟨j, Or.inr h'⟩)
            ⟨[], by simp, fun a ha => by cases ha⟩ h
        obtain ⟨rest, e, hrest⟩ := hcopy
        refine ⟨s2.2, rest, e, ?_, k2.2, hrest⟩
        intro k hk
        have hcell : s2.1[k]? = some (some ((List.merge (run buffer start1 size1)
            (run buffer (start1 + size1) size2) ltb).get ⟨k, by omega⟩)) := by
          rw [hw]; simp
        exact k2.1 k _ hcell

/-- C15. For `start1 + size1 + size2` within the buffer, runs ascending or
not: `merge` returns, and every access it makes is within bounds, each read
of `buffer` below `start1 + size1 + size2`, each write and each read of the
scratch array below `size1 + size2`, each write to `buffer` below
`size1 + size2`; the main loop exits with `count1 = size1` or
`count2 = size2`; the scratch array, of `size1 + size2` cells, has every
cell written when it is copied back; and in the order of the accesses a write
of every index below `size1 + size2` of the scratch array comes before all
the reads of the scratch array. -/
theorem merge_accesses_in_bounds {α : Type} [LT α] [DecidableRel ((· < ·) : α → α → Prop)]
    (buffer : List α) (start1 size1 size2 : Nat)
    (hb : start1 + size1 + size2 ≤ buffer.length) :
    ∃ (out : List α) (log : List Access) (filled : List α) (d1 d2 : Nat)
        (w : List (Option α)),
      mergeLogged buffer start1 size1 size2 = some (out, log)
      ∧ merge buffer start1 size1 size2 = some out
      ∧ (∀ a, a ∈ log → a.inBounds start1 size1 size2)
      ∧ mergeLoop buffer start1 (start1 + size1) size1 size2 (size1 + size2) 0 0
          (List.replicate (size1 + size2) none) = some (d1, d2, w)
      ∧ (d1 = size1 ∨ d2 = size2)
      ∧ mergeWorking buffer start1 size1 size2 = some (filled.map some)
      ∧ filled.length = size1 + size2
      ∧ ∃ fillLog copyLog : List Access, log = fillLog ++ copyLog
        ∧ (∀ k, k < size1 + size2 → Access.writeWorking k ∈ fillLog)
        ∧ (∀ i, Access.readWorking i ∉ fillLog)
        ∧ (∀ a, a ∈ copyLog → ∃ i, a = Access.readWorking i ∨ a = Access.writeBuffer i) := by
  have hm := merge_eq buffer start1 size1 size2 hb
  have hw := mergeWorking_eq buffer start1 size1 size2 hb
  obtain ⟨d1, d2, pre, j, hrun, _, _, hexit, _, _, _⟩ :=
    mergeLoop_spec buffer start1 size1 size2 hb (size1 + size2) 0 0 [] (size1 + size2)
      (by omega) (by omega) (by omega) (by simp) (by simp)
  simp only [List.map_nil, List.nil_append] at hrun
  have hlink := mergeLogged_fst buffer start1 size1 size2
  rw [hm] at hlink
  cases hl : mergeLogged buffer start1 size1 size2 with
  | none => rw [hl] at hlink; cases hlink
  | some r =>
    rw [hl] at hlink
    simp only [Option.map_some', Option.some.injEq] at hlink
    obtain ⟨out, log⟩ := r
    simp only at hlink
    subst hlink
    have hA := run_length buffer start1 size1 (by omega)
    have hB := run_length buffer (start1 + size1) size2 (by omega)
    have hperm : (List.merge (run buffer start1 size1) (run buffer (start1 + size1) size2)
        ltb).Perm (run buffer start1 size1 ++ run buffer (start1 + size1) size2) :=
      List.merge_perm_append ltb
    refine ⟨_, log, _, d1, d2, _, rfl, hm, ?_, hrun, hexit, hw, ?_,
      mergeLogged_written_before_read buffer start1 size1 size2 hb _ hl⟩
    · exact mergeLogged_inBounds buffer start1 size1 size2 _ hl
    · rw [hperm.length_eq]; simp [hA, hB]

/-- C15, on `[9,9,1,3,5,2,2,4]` with `start1 = 2` and two runs of length 3. -/
theorem merge_accesses_in_bounds_witness :
    ∃ (out : List Nat) (log : List Access) (filled : List Nat) (d1 d2 : Nat)
        (w : List (Option Nat)),
      mergeLogged ([9, 9, 1, 3, 5, 2, 2, 4] : List Nat) 2 3 3 = some (out, log)
      ∧ merge ([9, 9, 1, 3, 5, 2, 2, 4] : List Nat) 2 3 3 = some out
      ∧ (∀ a, a ∈ log → a.inBounds 2 3 3)
      ∧ mergeLoop ([9, 9, 1, 3, 5, 2, 2, 4] : List Nat) 2 (2 + 3) 3 3 (3 + 3) 0 0
          (List.replicate (3 + 3) none) = some (d1, d2, w)
      ∧ (d1 = 3 ∨ d2 = 3)
      ∧ mergeWorking ([9, 9, 1, 3, 5, 2, 2, 4] : List Nat) 2 3 3 = some (filled.map some)
      ∧ filled.length = 3 + 3
      ∧ ∃ fillLog copyLog : List Access, log = fillLog ++ copyLog
        ∧ (∀ k, k < 3 + 3 → Access.writeWorking k ∈ fillLog)
        ∧ (∀ i, Access.readWorking i ∉ fillLog)
        ∧ (∀ a, a ∈ copyLog → ∃ i, a = Access.readWorking i ∨ a = Access.writeBuffer i) :=
  merge_accesses_in_bounds [9, 9, 1, 3, 5, 2, 2, 4] 2 3 3 (by decide)

end MergeSort
